import Mathlib

/-!
Shallow embedding of the STM24256 EEPROM driver (src/STM24256.cpp, src/STM24256.h)
and proofs about it.

Modelling conventions:
* machine integers are modelled as `Nat` (or `Int` for the C `int data_length`
  parameter), with `% 65536` / `% 256` inserted exactly where the source relies
  on `uint16_t` / `uint8_t` truncation;
* the planner loop `for(uint16_t address = start_address; ...)` of
  `get_array_slice_locs` can fail to terminate (its only reachable exit is the
  in-loop `break`), so it is embedded as a fuel-indexed step function; the
  driver-level wrapper uses fuel 65536, which is enough whenever the loop
  terminates at all (proved below), and `none` marks divergence;
* the I2C bus and the EEPROM device are an external collaborator; they are
  modelled as an ideal device (memory array, address pointer set by the address
  phase, per-page wrap-around of the write pointer, linear roll-over of the
  read pointer) plus adversarial acknowledgement oracles `wAck` (one Bool per
  single-byte write, mbed returns 1 = ACK) and `rOk` (one Bool per block read,
  mbed returns 0 on success, which the source compares against `NoACK = 0`);
* every bus / control-line action is also recorded in an event trace; each
  event records the bus-lock depth at the moment it happens (`lockEv` records
  the depth before acquiring, `unlockEv` the depth after releasing, so a
  `lockEv 0` is a fresh acquisition and an `unlockEv 0` a full release);
  mbed's I2C mutex is recursive, which the depth counter models;
* the C++ local `char data_verify[data_length]` is uninitialised stack memory;
  it is modelled as a zero-filled buffer (a fixed concrete choice);
* `memcpy(write_data, &data[start_idx], n)` and `&data[start_idx]` splices are
  modelled with `List.take` / `List.drop` clamped at the buffer end.
-/

/-! ## Status codes and constants (src/STM24256.h) -/

def EEPROM_OK : Nat := 0
def EEPROM_SET_OP_ADDRESS_FAIL_MEM_ARRAY : Nat := 1
def EEPROM_SET_OP_ADDRESS_FAIL_MSB : Nat := 2
def EEPROM_SET_OP_ADDRESS_FAIL_LSB : Nat := 3
def EEPROM_READ_FAIL : Nat := 4
def EEPROM_WRITE_FAIL : Nat := 5
def EEPROM_VERIFY_FAIL : Nat := 6
def EEPROM_DATA_LENGTH_ODD : Nat := 7
def EEPROM_DATA_LENGTH_ZERO : Nat := 8

def EEPROM_WRITE_ENABLE : Nat := 0
def EEPROM_WRITE_DISABLE : Nat := 1

def EEPROM_MEM_ARRAY_ADDRESS_WRITE : Nat := 160
def EEPROM_MEM_ARRAY_ADDRESS_READ : Nat := 161

def I2C_ACK : Nat := 1
def I2C_NoACK : Nat := 0

/-! ## The page boundary planner: get_array_slice_locs (src/STM24256.cpp lines 100-138)

A chunk is one `(address, length)` row of the 16x2 table (`ADDRESS_DIM`,
`LENGTH_DIM`).  The rows are written at strictly increasing indices
0, 1, 2, ... , so the table contents are modelled as the list of rows in the
order they are written; `C10` accounts separately for the fixed capacity 16. -/

structure Chunk where
  address : Nat
  length : Nat
deriving DecidableEq, Repr

structure PlanState where
  addr : Nat
  currentPage : Option Nat
  chunkStart : Nat
  chunks : List Chunk
deriving DecidableEq, Repr

/-- One iteration of the scan loop body of `get_array_slice_locs`
(`current_page = -1` is `none`; `uint16_t address` wraps with `% 65536`).
`Sum.inr` is the in-loop `break` (which stores the final chunk). -/
def planStep (endAddr endPage : Nat) (s : PlanState) : PlanState ⊕ List Chunk :=
  let bytePage := s.addr / 64
  let s1 : PlanState :=
    match s.currentPage with
    | none => { s with currentPage := some bytePage }
    | some cp =>
      if cp = bytePage then s
      else
        { s with
          chunks := s.chunks ++ [{ address := s.chunkStart, length := s.addr - s.chunkStart }],
          currentPage := some bytePage,
          chunkStart := s.addr }
  if s1.currentPage = some endPage then
    Sum.inr (s1.chunks ++ [{ address := s1.chunkStart, length := endAddr - s1.chunkStart }])
  else
    Sum.inl { s1 with addr := (s1.addr + 1) % 65536 }

/-- Fuel-indexed run of the scan loop.  `Sum.inl` means the loop is still
running after `fuel` iterations; `Sum.inr` means it exited (by `break`, or by
the loop condition `address < start_address + data_length` turning false, in
which case the table is returned with the last chunk not closed, as in the
source). -/
def planRunAux (endAddr endPage : Nat) : Nat → PlanState → PlanState ⊕ List Chunk
  | 0, s => Sum.inl s
  | fuel + 1, s =>
    if s.addr < endAddr then
      match planStep endAddr endPage s with
      | Sum.inr cs => Sum.inr cs
      | Sum.inl s2 => planRunAux endAddr endPage fuel s2
    else
      Sum.inr s.chunks

def planInit (start : Nat) : PlanState :=
  { addr := start, currentPage := none, chunkStart := start, chunks := [] }

/-- The planner `get_array_slice_locs(start_address, data_length, boundaries)`.
The returned `boundaries` reference equals `chunks.length - 1` on terminating
runs, so it is not modelled separately.  Fuel 65536 suffices exactly when the
loop terminates at all (see the termination theorems); `none` is divergence. -/
def get_array_slice_locs (start_address data_length : Nat) : Option (List Chunk) :=
  match planRunAux (start_address + data_length) ((start_address + data_length - 1) / 64)
      65536 (planInit start_address) with
  | Sum.inl _ => none
  | Sum.inr cs => some cs

/-- Reference page decomposition: greedily cut the byte range
`[s, s + l)` at 64-byte page boundaries.  Used as the closed form of the
scan loop for terminating inputs. -/
def specPlan (s l : Nat) : List Chunk :=
  if h : l ≤ 64 - s % 64 then [{ address := s, length := l }]
  else
    { address := s, length := 64 - s % 64 } :: specPlan (s + (64 - s % 64)) (l - (64 - s % 64))
termination_by l
decreasing_by
  simp_wf
  omega

/-! ## Properties of segment lists (the C3 vocabulary) -/

/-- Segments are contiguous starting from `a`: the first segment starts at `a`
and each next segment starts where the previous one ends (no gap, no overlap). -/
def chainFrom : Nat → List Chunk → Bool
  | _, [] => true
  | a, c :: rest => decide (c.address = a) && chainFrom (c.address + c.length) rest

def chunksLenSum (cs : List Chunk) : Nat := (cs.map Chunk.length).sum

/-- The segment lies entirely within one 64-byte page. -/
def onePage (c : Chunk) : Bool := decide (c.address / 64 = (c.address + c.length - 1) / 64)

/-- Segments are sorted by strictly ascending address. -/
def segsSorted : List Chunk → Bool
  | [] => true
  | [_] => true
  | a :: b :: rest => decide (a.address < b.address) && segsSorted (b :: rest)

/-- All the segment-list properties claimed for the planner output. -/
def goodPlan (start len : Nat) (cs : List Chunk) : Bool :=
  chainFrom start cs && decide (chunksLenSum cs = len) && cs.all onePage &&
    cs.all (fun c => decide (0 < c.length)) && segsSorted cs

/-! ## Capacity accounting for the fixed 16x2 table (C10) -/

/-- Number of table rows held by a running state or a finished result. -/
def runLenOf : PlanState ⊕ List Chunk → Nat
  | Sum.inl s => s.chunks.length
  | Sum.inr cs => cs.length

/-- Number of table rows written so far after `fuel` loop iterations (rows are
written at indices `0, 1, ...`, so all accesses are in bounds for the
`int chunks[16][2]` table iff this count never exceeds 16). -/
def chunksCountAt (start len fuel : Nat) : Nat :=
  runLenOf (planRunAux (start + len) ((start + len - 1) / 64) fuel (planInit start))

def idxSafe (start len : Nat) : Prop := ∀ fuel, chunksCountAt start len fuel ≤ 16

/-- Number of 64-byte pages touched by the byte range `[start, start + len)`. -/
def pagesTouched (start len : Nat) : Nat := (start + len - 1) / 64 - start / 64 + 1

/-- The scan loop exits (for some amount of fuel). -/
def planTerminates (start len : Nat) : Prop :=
  ∃ fuel cs, planRunAux (start + len) ((start + len - 1) / 64) fuel (planInit start) = Sum.inr cs

/-! ## Bus, device and driver state (src/STM24256.cpp lines 20-95, mbed I2C/DigitalOut)

The device handle state `S` bundles the ideal EEPROM device (memory array,
address pointer, protocol phase), the `_write_control` line level `wc`, the
recursive-mutex depth of the mbed I2C lock, the acknowledgement-oracle
counters, and the event trace. -/

inductive Event where
  | lockEv (d : Nat)
  | unlockEv (d : Nat)
  | startEv (d : Nat)
  | stopEv (d : Nat)
  | writeByteEv (b : Nat) (ack : Bool) (d : Nat)
  | readBlockEv (sel : Nat) (len : Nat) (ok : Bool) (d : Nat)
  | waitEv (us : Nat)
  | wcEv (v : Nat)
deriving DecidableEq, Repr

inductive DevPhase where
  | idle
  | awaitSelect
  | awaitMsb
  | awaitLsb (msb : Nat)
  | writing
deriving DecidableEq, Repr

structure S where
  mem : Nat → Nat
  ptr : Nat
  phase : DevPhase
  wc : Nat
  lockDepth : Nat
  wCount : Nat
  rCount : Nat
  trace : List Event

def i2c_lock (s : S) : S :=
  { s with lockDepth := s.lockDepth + 1, trace := s.trace ++ [Event.lockEv s.lockDepth] }

def i2c_unlock (s : S) : S :=
  { s with lockDepth := s.lockDepth - 1, trace := s.trace ++ [Event.unlockEv (s.lockDepth - 1)] }

def i2c_start (s : S) : S :=
  { s with phase := DevPhase.awaitSelect, trace := s.trace ++ [Event.startEv s.lockDepth] }

def i2c_stop (s : S) : S :=
  { s with phase := DevPhase.idle, trace := s.trace ++ [Event.stopEv s.lockDepth] }

/-- A page write rolls the device pointer over within the current 64-byte page. -/
def pageIncr (p : Nat) : Nat := p / 64 * 64 + (p % 64 + 1) % 64

/-- Ideal-device interpretation of one acknowledged byte: select byte after a
start condition, then address high byte, address low byte, then data bytes. -/
def devWriteByte (b : Nat) (s : S) : S :=
  match s.phase with
  | DevPhase.idle => s
  | DevPhase.awaitSelect =>
    if b = EEPROM_MEM_ARRAY_ADDRESS_WRITE then { s with phase := DevPhase.awaitMsb }
    else { s with phase := DevPhase.idle }
  | DevPhase.awaitMsb => { s with phase := DevPhase.awaitLsb b }
  | DevPhase.awaitLsb msb =>
    { s with phase := DevPhase.writing, ptr := (msb * 256 + b) % 65536 }
  | DevPhase.writing =>
    { s with mem := fun a => if a = s.ptr then b % 256 else s.mem a, ptr := pageIncr s.ptr }

/-- mbed `I2C::write(int data)`: returns 1 (ACK) or 0 (no ACK); the
acknowledgement is drawn from the oracle `wAck` at the per-byte counter. -/
def i2c_write (wAck : Nat → Bool) (b : Nat) (s : S) : Nat × S :=
  let ack := wAck s.wCount
  let s1 : S := { s with wCount := s.wCount + 1,
                         trace := s.trace ++ [Event.writeByteEv b ack s.lockDepth] }
  if ack then (I2C_ACK, devWriteByte b s1) else (I2C_NoACK, s1)

/-- Sequential read rolls over the whole array (mod 65536 in the model). -/
def readBytes (s : S) (len : Nat) : List Nat :=
  (List.range len).map (fun i => s.mem ((s.ptr + i) % 65536))

/-- mbed `I2C::read(address, data, length)`: returns 0 on success (the source
compares the result against `NoACK = 0`), nonzero on failure. -/
def i2c_read (rOk : Nat → Bool) (sel len : Nat) (s : S) : Nat × List Nat × S :=
  let ok := rOk s.rCount
  let s1 : S := { s with rCount := s.rCount + 1,
                         trace := s.trace ++ [Event.readBlockEv sel len ok s.lockDepth] }
  if ok = true ∧ sel = EEPROM_MEM_ARRAY_ADDRESS_READ then
    (I2C_NoACK, readBytes s len,
      { s1 with ptr := (s1.ptr + len) % 65536, phase := DevPhase.idle })
  else
    (1, List.replicate len 0, s1)

def wait_us (n : Nat) (s : S) : S := { s with trace := s.trace ++ [Event.waitEv n] }

/-- `enable_write` (src/STM24256.cpp lines 38-41): drive the control line low. -/
def enable_write (s : S) : S :=
  { s with wc := EEPROM_WRITE_ENABLE, trace := s.trace ++ [Event.wcEv EEPROM_WRITE_ENABLE] }

/-- `disable_write` (src/STM24256.cpp lines 45-48): drive the control line high. -/
def disable_write (s : S) : S :=
  { s with wc := EEPROM_WRITE_DISABLE, trace := s.trace ++ [Event.wcEv EEPROM_WRITE_DISABLE] }

/-- `set_operation_address` (src/STM24256.cpp lines 57-95). -/
def set_operation_address (wAck : Nat → Bool) (address : Nat) (send_stop : Bool) (s : S) :
    Nat × S :=
  let addr16 := address % 65536
  let address_msb := addr16 / 256
  let address_lsb := addr16 % 256
  let s1 := i2c_start (i2c_lock s)
  let r1 := i2c_write wAck EEPROM_MEM_ARRAY_ADDRESS_WRITE s1
  if r1.1 ≠ I2C_ACK then
    (EEPROM_SET_OP_ADDRESS_FAIL_MEM_ARRAY, i2c_unlock (i2c_stop r1.2))
  else
    let r2 := i2c_write wAck address_msb r1.2
    if r2.1 ≠ I2C_ACK then
      (EEPROM_SET_OP_ADDRESS_FAIL_MSB, i2c_unlock (i2c_stop r2.2))
    else
      let r3 := i2c_write wAck address_lsb r2.2
      if r3.1 ≠ I2C_ACK then
        (EEPROM_SET_OP_ADDRESS_FAIL_LSB, i2c_unlock (i2c_stop r3.2))
      else
        (EEPROM_OK, i2c_unlock (if send_stop then i2c_stop r3.2 else r3.2))

/-- Overwrite `buf[idx ...]` with `bytes` (the `&data[start_idx]` output slice). -/
def writeSlice (buf : List Nat) (idx : Nat) (bytes : List Nat) : List Nat :=
  buf.take idx ++ bytes ++ buf.drop (idx + bytes.length)

/-- The multi-page read loop body (src/STM24256.cpp lines 188-230), iterated
over the boundary indices `0 .. boundaries`.  `start_idx` is computed exactly
as in the source: 0 for the first boundary, otherwise the PREVIOUS segment
length `slice_locs[boundary-1][LENGTH_DIM]` (not a cumulative sum). -/
def readSegs (wAck rOk : Nat → Bool) (chunks : List Chunk) (boundaries : Nat) :
    List Nat → List Nat → S → Nat × List Nat × S
  | [], data, s => (EEPROM_OK, data, s)
  | boundary :: rest, data, s =>
    let seg := chunks.getD boundary ⟨0, 0⟩
    let r := set_operation_address wAck seg.address true s
    if r.1 ≠ EEPROM_OK then (r.1, data, i2c_unlock r.2)
    else
      let start_idx := if boundary = 0 then 0 else (chunks.getD (boundary - 1) ⟨0, 0⟩).length
      let rr := i2c_read rOk EEPROM_MEM_ARRAY_ADDRESS_READ seg.length r.2
      if rr.1 ≠ I2C_NoACK then (EEPROM_READ_FAIL, data, i2c_unlock rr.2.2)
      else
        let data2 := writeSlice data start_idx rr.2.1
        let s2 := if boundary ≠ boundaries then wait_us 5000 rr.2.2 else rr.2.2
        readSegs wAck rOk chunks boundaries rest data2 s2

/-- `read_from_address` (src/STM24256.cpp lines 147-236).  `none` is the
divergence of `get_array_slice_locs` (the function never returns). -/
def read_from_address (wAck rOk : Nat → Bool) (address : Nat) (data : List Nat)
    (data_length : Int) (s : S) : Option (Nat × List Nat × S) :=
  if data_length ≤ 0 then some (EEPROM_DATA_LENGTH_ZERO, data, s)
  else
    let len := data_length.toNat
    let addr16 := address % 65536
    let s1 := i2c_lock s
    match get_array_slice_locs addr16 len with
    | none => none
    | some chunks =>
      let boundaries := chunks.length - 1
      if boundaries = 0 then
        let r := set_operation_address wAck addr16 true s1
        if r.1 ≠ EEPROM_OK then some (r.1, data, i2c_unlock r.2)
        else
          let rr := i2c_read rOk EEPROM_MEM_ARRAY_ADDRESS_READ len r.2
          if rr.1 ≠ I2C_NoACK then some (EEPROM_READ_FAIL, data, i2c_unlock rr.2.2)
          else some (EEPROM_OK, writeSlice data 0 rr.2.1, i2c_unlock rr.2.2)
      else
        let r := readSegs wAck rOk chunks boundaries (List.range (boundaries + 1)) data s1
        if r.1 ≠ EEPROM_OK then some (r.1, r.2.1, r.2.2)
        else some (EEPROM_OK, r.2.1, i2c_unlock r.2.2)

/-- The per-segment data slice selected by the multi-page write
(src/STM24256.cpp lines 320-336): `memcpy(write_data, &data[start_idx], len)`
with the source's `start_idx` (previous segment length, not cumulative). -/
def segBytes (data : List Nat) (chunks : List Chunk) (b : Nat) : List Nat :=
  (data.drop (if b = 0 then 0 else (chunks.getD (b - 1) ⟨0, 0⟩).length)).take
    (chunks.getD b ⟨0, 0⟩).length

/-- The per-byte write loop (src/STM24256.cpp lines 286-294 and 340-348):
`false` means a byte went unacknowledged. -/
def writeDataBytes (wAck : Nat → Bool) : List Nat → S → Bool × S
  | [], s => (true, s)
  | b :: rest, s =>
    let r := i2c_write wAck b s
    if r.1 ≠ I2C_ACK then (false, r.2)
    else writeDataBytes wAck rest r.2

/-- The multi-page write loop body (src/STM24256.cpp lines 306-362). -/
def writeSegs (wAck : Nat → Bool) (chunks : List Chunk) (boundaries : Nat) (data : List Nat) :
    List Nat → S → Nat × S
  | [], s => (EEPROM_OK, s)
  | boundary :: rest, s =>
    let seg := chunks.getD boundary ⟨0, 0⟩
    let r := set_operation_address wAck seg.address false s
    if r.1 ≠ EEPROM_OK then (r.1, i2c_unlock (disable_write r.2))
    else
      let write_data := segBytes data chunks boundary
      let wr := writeDataBytes wAck write_data r.2
      if wr.1 = false then (EEPROM_WRITE_FAIL, i2c_unlock (disable_write wr.2))
      else
        let s2 := i2c_stop wr.2
        let s3 := if boundary ≠ boundaries then wait_us 5000 s2 else s2
        writeSegs wAck chunks boundaries data rest s3

/-- The byte-by-byte comparison of the verification pass
(src/STM24256.cpp lines 383-389). -/
def verifyMismatch (a b : List Nat) (len : Nat) : Bool :=
  (List.range len).any (fun i => decide (a.getD i 0 ≠ b.getD i 0))

/-- The write phase proper (src/STM24256.cpp lines 275-363): single-page or
multi-page, from the state after `_i2c.lock(); enable_write();`.  `none` in
the first component means control fell through to line 365.  Note: the
single-page address-phase failure path returns WITHOUT `disable_write()`
(lines 279-284), unlike its multi-page counterpart (line 313). -/
def writeCore (wAck : Nat → Bool) (chunks : List Chunk) (data : List Nat) (len : Nat)
    (addr16 : Nat) (s1 : S) : Option Nat × S :=
  let boundaries := chunks.length - 1
  if boundaries = 0 then
    let r := set_operation_address wAck addr16 false s1
    if r.1 ≠ EEPROM_OK then (some r.1, i2c_unlock r.2)
    else
      let wr := writeDataBytes wAck (data.take len) r.2
      if wr.1 = false then (some EEPROM_WRITE_FAIL, i2c_unlock (disable_write wr.2))
      else (none, i2c_stop wr.2)
  else
    let r := writeSegs wAck chunks boundaries data (List.range (boundaries + 1)) s1
    if r.1 ≠ EEPROM_OK then (some r.1, r.2)
    else (none, r.2)

/-- The epilogue of `write_to_address` (src/STM24256.cpp lines 365-392):
`disable_write(); _i2c.unlock();` and then, when requested, the verification
pass — a 5 ms settle delay, a full read-back into the (uninitialised, modelled
zero-filled) `char data_verify[data_length]`, and the byte-wise comparison. -/
def writeTail (wAck rOk : Nat → Bool) (address : Nat) (data : List Nat) (data_length : Int)
    (verify : Bool) (s2 : S) : Option (Nat × S) :=
  let len := data_length.toNat
  let s3 := i2c_unlock (disable_write s2)
  if verify then
    let s4 := wait_us 5000 s3
    let data_verify := List.replicate len 0
    match read_from_address wAck rOk address data_verify data_length s4 with
    | none => none
    | some (st, dv, s5) =>
      if st ≠ EEPROM_OK then some (EEPROM_READ_FAIL, s5)
      else if verifyMismatch data dv len then some (EEPROM_VERIFY_FAIL, s5)
      else some (EEPROM_OK, s5)
  else some (EEPROM_OK, s3)

/-- `write_to_address` (src/STM24256.cpp lines 248-393).  Note two source
behaviours modelled verbatim: the single-page address-phase failure path
returns WITHOUT `disable_write()` (lines 279-284), and the verification pass
runs after `disable_write(); _i2c.unlock();` (lines 365-390), reading into the
uninitialised `char data_verify[data_length]`, modelled as zero-filled. -/
def write_to_address (wAck rOk : Nat → Bool) (address : Nat) (data : List Nat)
    (data_length : Int) (verify : Bool) (s : S) : Option (Nat × S) :=
  if data_length ≤ 0 then some (EEPROM_DATA_LENGTH_ZERO, s)
  else if data_length % 2 ≠ 0 then some (EEPROM_DATA_LENGTH_ODD, s)
  else
    let len := data_length.toNat
    let addr16 := address % 65536
    let s1 := enable_write (i2c_lock s)
    match get_array_slice_locs addr16 len with
    | none => none
    | some chunks =>
      match writeCore wAck chunks data len addr16 s1 with
      | (some st, s2) => some (st, s2)
      | (none, s2) => writeTail wAck rOk address data data_length verify s2

/-! ## Oracles and a clean initial handle state -/

def oAll : Nat → Bool := fun _ => true

def oNone : Nat → Bool := fun _ => false

/-- Acknowledge every byte except the `n`-th one written on the bus. -/
def oFailAt (n : Nat) : Nat → Bool := fun i => decide (i ≠ n)

def initS : S :=
  { mem := fun _ => 0, ptr := 0, phase := DevPhase.idle, wc := EEPROM_WRITE_DISABLE,
    lockDepth := 0, wCount := 0, rCount := 0, trace := [] }

/-! ## Trace shapes of successful calls (C8 vocabulary) -/

/-- Trace of a successful `set_operation_address` called at lock depth `d`. -/
def setOpTr (address : Nat) (send_stop : Bool) (d : Nat) : List Event :=
  [Event.lockEv d, Event.startEv (d + 1),
   Event.writeByteEv EEPROM_MEM_ARRAY_ADDRESS_WRITE true (d + 1),
   Event.writeByteEv (address % 65536 / 256) true (d + 1),
   Event.writeByteEv (address % 65536 % 256) true (d + 1)] ++
  (if send_stop then [Event.stopEv (d + 1)] else []) ++ [Event.unlockEv d]

/-- Trace of one successful page-level read segment (the block-read event
includes the read restart and terminal stop issued inside mbed `I2C::read`). -/
def readSegTr (c : Chunk) : List Event :=
  setOpTr c.address true 1 ++
    [Event.readBlockEv EEPROM_MEM_ARRAY_ADDRESS_READ c.length true 1]

/-- Trace of one successful page-level write segment. -/
def writeSegTr (c : Chunk) (bytes : List Nat) : List Event :=
  setOpTr c.address false 1 ++ bytes.map (fun b => Event.writeByteEv b true 1) ++
    [Event.stopEv 1]

/-- Join segment traces with a single 5000 microsecond settle delay between
consecutive segments and none after the last. -/
def sepWaits : List (List Event) → List Event
  | [] => []
  | [t] => t
  | t :: ts => t ++ Event.waitEv 5000 :: sepWaits ts

def segTracesWrite (chunks : List Chunk) (data : List Nat) : List (List Event) :=
  (List.range chunks.length).map
    (fun b => writeSegTr (chunks.getD b ⟨0, 0⟩) (segBytes data chunks b))

/-! ## Lock-span analysis (C4 vocabulary) -/

def busEvent : Event → Bool
  | Event.startEv _ => true
  | Event.stopEv _ => true
  | Event.writeByteEv _ _ _ => true
  | Event.readBlockEv _ _ _ _ => true
  | _ => false

/-- An event is compatible with the lock being continuously held: bus events
happen at depth at least 1, and neither a fresh acquisition (`lockEv 0`) nor a
full release (`unlockEv 0`) occurs. -/
def evOk : Event → Bool
  | Event.lockEv d => decide (0 < d)
  | Event.unlockEv d => decide (0 < d)
  | Event.startEv d => decide (0 < d)
  | Event.stopEv d => decide (0 < d)
  | Event.writeByteEv _ _ d => decide (0 < d)
  | Event.readBlockEv _ _ _ d => decide (0 < d)
  | Event.waitEv _ => true
  | Event.wcEv _ => true

def trimFront (tr : List Event) : List Event := tr.dropWhile (fun e => !busEvent e)

/-- The slice of the trace from its first bus event to its last bus event. -/
def busSpan (tr : List Event) : List Event := (trimFront (trimFront tr).reverse).reverse

/-- The bus lock is held without interruption across the whole bus-active span
of the trace. -/
def heldThroughout (tr : List Event) : Bool := (busSpan tr).all evOk

/-! ## Concrete runs used by the C1 and C2 code-bug demonstrations -/

/-- 68 data bytes: 1..66 followed by two zero bytes (which coincide with the
model of the uninitialised verification buffer). -/
def c2data : List Nat := (List.range 66).map (fun i => i + 1) ++ [0, 0]

/-- Write 68 bytes at address 62 (three segments) with verification, on an
error-free bus, then read them back into a buffer prefilled with 255. -/
def c2run : Option (Nat × Nat × List Nat) :=
  match write_to_address oAll oAll 62 c2data 68 true initS with
  | none => none
  | some (st1, s1) =>
    match read_from_address oAll oAll 62 (List.replicate 68 255) 68 s1 with
    | none => none
    | some (st2, out, _) => some (st1, st2, out)

/-- What the read-back actually returns: bytes 66 and 67 of the request are
never filled because the interior-segment index arithmetic loses them. -/
def c2expected : List Nat := (List.range 66).map (fun i => i + 1) ++ [255, 255]

/-- The state after an all-acknowledged run of the per-byte write loop. -/
def writeBytesOkS : List Nat → S → S
  | [], s => s
  | b :: rest, s =>
    writeBytesOkS rest (devWriteByte b
      { s with wCount := s.wCount + 1,
               trace := s.trace ++ [Event.writeByteEv b true s.lockDepth] })

/-- The trace grew only by events compatible with a continuously held lock. -/
def ExtOk (s s2 : S) : Prop :=
  ∃ M, s2.trace = s.trace ++ M ∧ M.all evOk = true

/-- The state reached by an error-free run of the multi-page read loop
(same stepping as `readSegs` with both oracles always succeeding). -/
def readSegsOkS (chunks : List Chunk) (boundaries : Nat) : List Nat → List Nat → S → List Nat × S
  | [], data, s => (data, s)
  | boundary :: rest, data, s =>
    let seg := chunks.getD boundary ⟨0, 0⟩
    let s1 := (set_operation_address oAll seg.address true s).2
    let rr := i2c_read oAll EEPROM_MEM_ARRAY_ADDRESS_READ seg.length s1
    let start_idx := if boundary = 0 then 0 else (chunks.getD (boundary - 1) ⟨0, 0⟩).length
    let data2 := writeSlice data start_idx rr.2.1
    let s2 := if boundary ≠ boundaries then wait_us 5000 rr.2.2 else rr.2.2
    readSegsOkS chunks boundaries rest data2 s2

/-- The state reached by an error-free run of the multi-page write loop. -/
def writeSegsOkS (chunks : List Chunk) (boundaries : Nat) (data : List Nat) : List Nat → S → S
  | [], s => s
  | boundary :: rest, s =>
    let seg := chunks.getD boundary ⟨0, 0⟩
    let s1 := (set_operation_address oAll seg.address false s).2
    let s2 := writeBytesOkS (segBytes data chunks boundary) s1
    let s3 := i2c_stop s2
    let s4 := if boundary ≠ boundaries then wait_us 5000 s3 else s3
    writeSegsOkS chunks boundaries data rest s4

/-! ## Planner lemmas -/

theorem specPlan_eq_single (s l : Nat) (h : l ≤ 64 - s % 64) :
    specPlan s l = [{ address := s, length := l }] := by
  rw [specPlan]
  simp [h]

theorem specPlan_eq_cons (s l : Nat) (h : ¬ l ≤ 64 - s % 64) :
    specPlan s l = { address := s, length := 64 - s % 64 } ::
      specPlan (s + (64 - s % 64)) (l - (64 - s % 64)) := by
  rw [specPlan]
  simp [h]

theorem planRunAux_succ_inl (endAddr endPage fuel : Nat) (s s2 : PlanState)
    (hlt : s.addr < endAddr) (hstep : planStep endAddr endPage s = Sum.inl s2) :
    planRunAux endAddr endPage (fuel + 1) s = planRunAux endAddr endPage fuel s2 := by
  simp [planRunAux, hlt, hstep]

theorem planRunAux_succ_inr (endAddr endPage fuel : Nat) (s : PlanState) (cs : List Chunk)
    (hlt : s.addr < endAddr) (hstep : planStep endAddr endPage s = Sum.inr cs) :
    planRunAux endAddr endPage (fuel + 1) s = Sum.inr cs := by
  simp [planRunAux, hlt, hstep]

theorem planRunAux_seg (endAddr : Nat) (hEnd : endAddr ≤ 65536) :
    ∀ fuel a c acc, c < a → (a - 1) / 64 = c / 64 → c / 64 ≠ (endAddr - 1) / 64 →
      a ≤ endAddr → endAddr - a ≤ fuel →
      planRunAux endAddr ((endAddr - 1) / 64) fuel
        { addr := a, currentPage := some (c / 64), chunkStart := c, chunks := acc } =
        Sum.inr (acc ++ specPlan c (endAddr - c)) := by
  intro fuel
  induction fuel with
  | zero =>
    intro a c acc h1 h2 h3 h4 h5
    omega
  | succ fuel ih =>
    intro a c acc h1 h2 h3 h4 h5
    have haE : a < endAddr := by omega
    by_cases hpg : c / 64 = a / 64
    · -- still on the same page: no state change except the address
      have h3a : ¬ a / 64 = (endAddr - 1) / 64 := by omega
      have hstep : planStep endAddr ((endAddr - 1) / 64)
          { addr := a, currentPage := some (c / 64), chunkStart := c, chunks := acc } =
          Sum.inl { addr := (a + 1) % 65536, currentPage := some (c / 64),
                    chunkStart := c, chunks := acc } := by
        simp [planStep, hpg, h3a]
      rw [planRunAux_succ_inl _ _ _ _ _ haE hstep]
      have hmod : (a + 1) % 65536 = a + 1 := by
        apply Nat.mod_eq_of_lt
        omega
      rw [hmod]
      exact ih (a + 1) c acc (by omega) (by omega) h3 (by omega) (by omega)
    · -- page transition at `a`: close the open chunk and start a new one
      have ha64 : a % 64 = 0 ∧ a / 64 = c / 64 + 1 := by omega
      by_cases hbr : a / 64 = (endAddr - 1) / 64
      · -- the new page is the end page: the loop breaks, closing the final chunk
        have hpg2 : ¬ c / 64 = (endAddr - 1) / 64 := by omega
        have hstep : planStep endAddr ((endAddr - 1) / 64)
            { addr := a, currentPage := some (c / 64), chunkStart := c, chunks := acc } =
            Sum.inr ((acc ++ [{ address := c, length := a - c }]) ++
              [{ address := a, length := endAddr - a }]) := by
          simp [planStep, hpg, hbr, hpg2]
        rw [planRunAux_succ_inr _ _ _ _ _ haE hstep]
        have hspec : specPlan c (endAddr - c) =
            [{ address := c, length := a - c }, { address := a, length := endAddr - a }] := by
          rw [specPlan_eq_cons c (endAddr - c) (by omega)]
          have e1 : 64 - c % 64 = a - c := by omega
          rw [e1]
          have e2 : c + (a - c) = a := by omega
          have e3 : endAddr - c - (a - c) = endAddr - a := by omega
          rw [e2, e3, specPlan_eq_single a (endAddr - a) (by omega)]
        rw [hspec]
        simp
      · -- the new page is interior: record the chunk and keep scanning
        have hstep : planStep endAddr ((endAddr - 1) / 64)
            { addr := a, currentPage := some (c / 64), chunkStart := c, chunks := acc } =
            Sum.inl { addr := (a + 1) % 65536, currentPage := some (a / 64),
                      chunkStart := a, chunks := acc ++ [{ address := c, length := a - c }] } := by
          simp [planStep, hpg, hbr]
        rw [planRunAux_succ_inl _ _ _ _ _ haE hstep]
        have hmod : (a + 1) % 65536 = a + 1 := by
          apply Nat.mod_eq_of_lt
          omega
        rw [hmod]
        have hspec : specPlan c (endAddr - c) =
            { address := c, length := a - c } :: specPlan a (endAddr - a) := by
          rw [specPlan_eq_cons c (endAddr - c) (by omega)]
          have e1 : 64 - c % 64 = a - c := by omega
          rw [e1]
          have e2 : c + (a - c) = a := by omega
          have e3 : endAddr - c - (a - c) = endAddr - a := by omega
          rw [e2, e3]
        rw [hspec]
        have hlist : acc ++ ({ address := c, length := a - c } :: specPlan a (endAddr - a)) =
            (acc ++ [{ address := c, length := a - c }]) ++ specPlan a (endAddr - a) := by
          simp
        rw [hlist]
        exact ih (a + 1) a (acc ++ [{ address := c, length := a - c }])
          (by omega) (by omega) hbr (by omega) (by omega)

theorem get_eq_specPlan (start len : Nat) (h0 : 0 < len) (hs : start < 65536)
    (hb : start + len ≤ 65536) :
    get_array_slice_locs start len = some (specPlan start len) := by
  unfold get_array_slice_locs
  rw [show (65536 : Nat) = 65535 + 1 from rfl]
  by_cases hone : start / 64 = (start + len - 1) / 64
  · -- single page: the very first iteration hits the end page and breaks
    have hstep : planStep (start + len) ((start + len - 1) / 64) (planInit start) =
        Sum.inr [{ address := start, length := start + len - start }] := by
      simp [planStep, planInit, hone]
    rw [planRunAux_succ_inr _ _ _ _ _ (by simp [planInit]; omega) hstep]
    rw [specPlan_eq_single start len (by omega)]
    have : start + len - start = len := by omega
    rw [this]
  · have hstep : planStep (start + len) ((start + len - 1) / 64) (planInit start) =
        Sum.inl { addr := (start + 1) % 65536, currentPage := some (start / 64),
                  chunkStart := start, chunks := [] } := by
      simp [planStep, planInit, hone]
    rw [planRunAux_succ_inl _ _ _ _ _ (by simp [planInit]; omega) hstep]
    have hmod : (start + 1) % 65536 = start + 1 := by
      apply Nat.mod_eq_of_lt
      omega
    rw [hmod]
    rw [planRunAux_seg (start + len) hb 65535 (start + 1) start []
      (by omega) (by omega) hone (by omega) (by omega)]
    have : start + len - start = len := by omega
    rw [this]
    simp

theorem specPlan_sum : ∀ l s, 0 < l → chunksLenSum (specPlan s l) = l := by
  intro l
  induction l using Nat.strong_induction_on with
  | _ l ih =>
    intro s h0
    by_cases h : l ≤ 64 - s % 64
    · rw [specPlan_eq_single s l h]
      simp [chunksLenSum]
    · rw [specPlan_eq_cons s l h]
      have hrec := ih (l - (64 - s % 64)) (by omega) (s + (64 - s % 64)) (by omega)
      simp only [chunksLenSum, List.map_cons, List.sum_cons] at hrec ⊢
      omega

theorem specPlan_chain : ∀ l s, chainFrom s (specPlan s l) = true := by
  intro l
  induction l using Nat.strong_induction_on with
  | _ l ih =>
    intro s
    by_cases h : l ≤ 64 - s % 64
    · rw [specPlan_eq_single s l h]
      simp [chainFrom]
    · rw [specPlan_eq_cons s l h]
      simp [chainFrom, ih (l - (64 - s % 64)) (by omega) (s + (64 - s % 64))]

theorem specPlan_onePage : ∀ l s, 0 < l → (specPlan s l).all onePage = true := by
  intro l
  induction l using Nat.strong_induction_on with
  | _ l ih =>
    intro s h0
    by_cases h : l ≤ 64 - s % 64
    · rw [specPlan_eq_single s l h]
      simp [onePage]
      omega
    · rw [specPlan_eq_cons s l h]
      simp only [List.all_cons, Bool.and_eq_true]
      constructor
      · simp [onePage]
        omega
      · exact ih (l - (64 - s % 64)) (by omega) (s + (64 - s % 64)) (by omega)

theorem specPlan_pos : ∀ l s, 0 < l → (specPlan s l).all (fun c => decide (0 < c.length)) = true := by
  intro l
  induction l using Nat.strong_induction_on with
  | _ l ih =>
    intro s h0
    by_cases h : l ≤ 64 - s % 64
    · rw [specPlan_eq_single s l h]
      simp
      omega
    · rw [specPlan_eq_cons s l h]
      simp only [List.all_cons, Bool.and_eq_true]
      constructor
      · simp
        omega
      · exact ih (l - (64 - s % 64)) (by omega) (s + (64 - s % 64)) (by omega)

theorem sorted_of_chain : ∀ (cs : List Chunk) (a : Nat), chainFrom a cs = true →
    cs.all (fun c => decide (0 < c.length)) = true → segsSorted cs = true := by
  intro cs
  induction cs with
  | nil =>
    intro a _ _
    rfl
  | cons c rest ih =>
    intro a hch hpos
    cases rest with
    | nil => rfl
    | cons d rest2 =>
      simp only [chainFrom, Bool.and_eq_true, decide_eq_true_eq] at hch
      obtain ⟨hca, hchain2⟩ := hch
      have hd : d.address = c.address + c.length := hchain2.1
      have hposc : 0 < c.length := by
        simp only [List.all_cons, Bool.and_eq_true, decide_eq_true_eq] at hpos
        exact hpos.1
      have hpos2 : (d :: rest2).all (fun c => decide (0 < c.length)) = true := by
        simp only [List.all_cons, Bool.and_eq_true] at hpos ⊢
        exact hpos.2
      have hchain3 : chainFrom (c.address + c.length) (d :: rest2) = true := by
        simp only [chainFrom, Bool.and_eq_true, decide_eq_true_eq]
        exact hchain2
      simp only [segsSorted, Bool.and_eq_true, decide_eq_true_eq]
      exact ⟨by omega, ih (c.address + c.length) hchain3 hpos2⟩

theorem specPlan_length : ∀ l s, 0 < l →
    (specPlan s l).length = (s + l - 1) / 64 - s / 64 + 1 := by
  intro l
  induction l using Nat.strong_induction_on with
  | _ l ih =>
    intro s h0
    by_cases h : l ≤ 64 - s % 64
    · rw [specPlan_eq_single s l h]
      simp
      omega
    · rw [specPlan_eq_cons s l h]
      simp only [List.length_cons]
      rw [ih (l - (64 - s % 64)) (by omega) (s + (64 - s % 64)) (by omega)]
      omega

theorem specPlan_goodPlan (start len : Nat) (h0 : 0 < len) :
    goodPlan start len (specPlan start len) = true := by
  unfold goodPlan
  rw [specPlan_chain len start, specPlan_onePage len start h0, specPlan_pos len start h0,
    specPlan_sum len start h0,
    sorted_of_chain _ start (specPlan_chain len start) (specPlan_pos len start h0)]
  simp

theorem planRunAux_stuck (endAddr endPage : Nat) (hE : 65536 < endAddr) (hP : 1024 ≤ endPage) :
    ∀ fuel s, s.addr < 65536 →
      ∃ s2, planRunAux endAddr endPage fuel s = Sum.inl s2 ∧ s2.addr < 65536 := by
  intro fuel
  induction fuel with
  | zero =>
    intro s h
    exact ⟨s, rfl, h⟩
  | succ fuel ih =>
    intro s h
    obtain ⟨ad, cpg, cst, cks⟩ := s
    have h2 : ad < 65536 := h
    have hlt : ad < endAddr := by omega
    have hpage : ¬ ad / 64 = endPage := by omega
    have hmod : (ad + 1) % 65536 < 65536 := Nat.mod_lt _ (by omega)
    cases cpg with
    | none =>
      have hstep : planStep endAddr endPage ⟨ad, none, cst, cks⟩ =
          Sum.inl ⟨(ad + 1) % 65536, some (ad / 64), cst, cks⟩ := by
        simp [planStep, hpage]
      rw [planRunAux_succ_inl _ _ _ _ _ hlt hstep]
      exact ih _ hmod
    | some cp =>
      by_cases hcp : cp = ad / 64
      · have hstep : planStep endAddr endPage ⟨ad, some cp, cst, cks⟩ =
            Sum.inl ⟨(ad + 1) % 65536, some cp, cst, cks⟩ := by
          simp [planStep, hcp, hpage]
        rw [planRunAux_succ_inl _ _ _ _ _ hlt hstep]
        exact ih _ hmod
      · have hstep : planStep endAddr endPage ⟨ad, some cp, cst, cks⟩ =
            Sum.inl ⟨(ad + 1) % 65536, some (ad / 64), ad,
              cks ++ [⟨cst, ad - cst⟩]⟩ := by
          simp [planStep, hcp, hpage]
        rw [planRunAux_succ_inl _ _ _ _ _ hlt hstep]
        exact ih _ hmod

theorem get_none_of_overflow (start len : Nat) (hs : start < 65536)
    (hover : 65536 < start + len) :
    get_array_slice_locs start len = none := by
  unfold get_array_slice_locs
  obtain ⟨s2, h2, _⟩ := planRunAux_stuck (start + len) ((start + len - 1) / 64) hover
    (by omega) 65536 (planInit start) (by simpa [planInit] using hs)
  rw [h2]

theorem planRunAux_add (endAddr endPage : Nat) :
    ∀ a b s, planRunAux endAddr endPage (a + b) s =
      match planRunAux endAddr endPage a s with
      | Sum.inl s2 => planRunAux endAddr endPage b s2
      | Sum.inr cs => Sum.inr cs := by
  intro a
  induction a with
  | zero =>
    intro b s
    simp [planRunAux]
  | succ a ih =>
    intro b s
    rw [show a + 1 + b = (a + b) + 1 by omega]
    simp only [planRunAux]
    by_cases h : s.addr < endAddr
    · rw [if_pos h, if_pos h]
      cases hst : planStep endAddr endPage s with
      | inr cs => simp
      | inl s2 => simp [ih]
    · rw [if_neg h, if_neg h]

theorem planStep_len (endAddr endPage : Nat) (s : PlanState) :
    s.chunks.length ≤ runLenOf (planStep endAddr endPage s) := by
  obtain ⟨ad, cpg, cst, cks⟩ := s
  show cks.length ≤ _
  cases cpg with
  | none =>
    by_cases hbr : ad / 64 = endPage
    · simp [planStep, ← hbr, runLenOf]
    · simp [planStep, hbr, runLenOf]
  | some cp =>
    by_cases hcp : cp = ad / 64
    · subst hcp
      by_cases hbr : ad / 64 = endPage
      · simp [planStep, ← hbr, runLenOf]
      · simp [planStep, hbr, runLenOf]
    · by_cases hbr : ad / 64 = endPage
      · simp [planStep, hcp, ← hbr, runLenOf]
      · simp [planStep, hcp, hbr, runLenOf]

theorem planRunAux_len_mono (endAddr endPage : Nat) :
    ∀ fuel s, s.chunks.length ≤ runLenOf (planRunAux endAddr endPage fuel s) := by
  intro fuel
  induction fuel with
  | zero =>
    intro s
    exact Nat.le_refl _
  | succ fuel ih =>
    intro s
    simp only [planRunAux]
    by_cases h : s.addr < endAddr
    · rw [if_pos h]
      have hlen := planStep_len endAddr endPage s
      cases hst : planStep endAddr endPage s with
      | inr cs =>
        rw [hst] at hlen
        simpa [runLenOf] using hlen
      | inl s2 =>
        rw [hst] at hlen
        simp only [runLenOf] at hlen
        calc s.chunks.length ≤ s2.chunks.length := hlen
          _ ≤ _ := ih s2
    · rw [if_neg h]
      exact Nat.le_refl _

/-! ## Termination and divergence of the planner and of the driver calls -/

theorem get_some_inr (start len : Nat) (cs : List Chunk)
    (h : get_array_slice_locs start len = some cs) :
    planRunAux (start + len) ((start + len - 1) / 64) 65536 (planInit start) = Sum.inr cs := by
  unfold get_array_slice_locs at h
  cases hh : planRunAux (start + len) ((start + len - 1) / 64) 65536 (planInit start) with
  | inl s2 =>
    rw [hh] at h
    exact Option.noConfusion h
  | inr cs2 =>
    rw [hh] at h
    simp only [Option.some.injEq] at h
    rw [h]

theorem read_ne_none_of_some_plan (wAck rOk : Nat → Bool) (address : Nat) (data : List Nat)
    (len : Nat) (h0 : 0 < len) (chunks : List Chunk)
    (hget : get_array_slice_locs (address % 65536) len = some chunks) (s : S) :
    read_from_address wAck rOk address data (len : Int) s ≠ none := by
  have hpos : ¬ ((len : Int) ≤ 0) := by omega
  intro hnone
  simp only [read_from_address, hpos, if_false, Int.toNat_natCast, hget] at hnone
  split at hnone <;> first
    | exact Option.noConfusion hnone
    | (split at hnone <;> first
        | exact Option.noConfusion hnone
        | (split at hnone <;> exact Option.noConfusion hnone))

theorem write_ne_none_of_some_plan (wAck rOk : Nat → Bool) (address : Nat) (data : List Nat)
    (len : Nat) (h0 : 0 < len) (heven : (len : Int) % 2 = 0) (verify : Bool)
    (chunks : List Chunk)
    (hget : get_array_slice_locs (address % 65536) len = some chunks) (s : S) :
    write_to_address wAck rOk address data (len : Int) verify s ≠ none := by
  have hpos : ¬ ((len : Int) ≤ 0) := by omega
  have hodd : ¬ ((len : Int) % 2 ≠ 0) := by simp [heven]
  intro hnone
  simp only [write_to_address, hpos, hodd, if_false, Int.toNat_natCast, hget] at hnone
  split at hnone
  · exact Option.noConfusion hnone
  · simp only [writeTail, Int.toNat_natCast] at hnone
    split at hnone
    · -- verify = true: the read-back cannot be none either
      split at hnone
      · rename_i hr
        exact read_ne_none_of_some_plan wAck rOk address _ len h0 chunks hget _ hr
      · split at hnone
        · exact Option.noConfusion hnone
        · split at hnone <;> exact Option.noConfusion hnone
    · exact Option.noConfusion hnone

theorem read_none_of_overflow (wAck rOk : Nat → Bool) (address : Nat) (data : List Nat)
    (len : Nat) (s : S) (hs : address < 65536) (h0 : 0 < len)
    (hover : 65536 < address + len) :
    read_from_address wAck rOk address data (len : Int) s = none := by
  have hpos : ¬ ((len : Int) ≤ 0) := by omega
  have hmod : address % 65536 = address := Nat.mod_eq_of_lt hs
  simp only [read_from_address, hpos, if_false, Int.toNat_natCast, hmod,
    get_none_of_overflow address len hs hover]

theorem write_none_of_overflow (wAck rOk : Nat → Bool) (address : Nat) (data : List Nat)
    (len : Nat) (verify : Bool) (s : S) (hs : address < 65536) (h0 : 0 < len)
    (heven : (len : Int) % 2 = 0) (hover : 65536 < address + len) :
    write_to_address wAck rOk address data (len : Int) verify s = none := by
  have hpos : ¬ ((len : Int) ≤ 0) := by omega
  have hodd : ¬ ((len : Int) % 2 ≠ 0) := by simp [heven]
  have hmod : address % 65536 = address := Nat.mod_eq_of_lt hs
  simp only [write_to_address, hpos, hodd, if_false, Int.toNat_natCast, hmod,
    get_none_of_overflow address len hs hover]

/-! ## C3: the page boundary planner -/

/-- C3 counterexample: as stated — for every uint16 start address and every
positive length the planner returns a good segment list — the claim is false:
at start 65535, length 2 the request overflows the 16-bit address space, the
scan loop's break page is unreachable, and `get_array_slice_locs` never
returns (the fuelled embedding yields `none` for every fuel, here at the
canonical fuel). -/
theorem c3_counterexample :
    ¬ (∀ start len : Nat, start < 65536 → 0 < len →
        ∃ cs, get_array_slice_locs start len = some cs ∧ goodPlan start len cs = true) := by
  intro h
  obtain ⟨cs, hcs, _⟩ := h 65535 2 (by decide) (by decide)
  rw [get_none_of_overflow 65535 2 (by decide) (by decide)] at hcs
  exact Option.noConfusion hcs

/-- C3 amended: for every start address and every positive length such that
start_address + data_length ≤ 65536 (without this the scan loop diverges, see
C9), get_array_slice_locs returns a segment list whose lengths sum to the
requested length, which is contiguous (no gap, no overlap), sorted by
ascending address, each segment within one 64-byte page
(address / 64 = (address + length - 1) / 64); a request inside a single page
yields exactly one segment equal to the whole request — in particular no
spurious segment when the request starts on a page boundary. -/
theorem c3_planner_segments (start len : Nat) (hs : start < 65536) (h0 : 0 < len)
    (hb : start + len ≤ 65536) :
    ∃ cs, get_array_slice_locs start len = some cs ∧ goodPlan start len cs = true ∧
      (start / 64 = (start + len - 1) / 64 → cs = [{ address := start, length := len }]) := by
  refine ⟨specPlan start len, get_eq_specPlan start len h0 hs hb,
    specPlan_goodPlan start len h0, ?_⟩
  intro hone
  exact specPlan_eq_single start len (by omega)

theorem c3_planner_segments_witness :
    (100 : Nat) < 65536 ∧ (0 : Nat) < 60 ∧ 100 + 60 ≤ 65536 ∧
      (∃ cs, get_array_slice_locs 100 60 = some cs ∧ goodPlan 100 60 cs = true ∧
        (100 / 64 = (100 + 60 - 1) / 64 → cs = [{ address := 100, length := 60 }])) :=
  ⟨by decide, by decide, by decide, c3_planner_segments 100 60 (by decide) (by decide) (by decide)⟩

/-! ## C9: termination of the scan loop -/

/-- C9: the scan loop of get_array_slice_locs terminates (for some fuel) if
and only if start_address + data_length ≤ 65536; when the range end exceeds
65536 the uint16 loop index wraps below the loop bound and the end-page break
is never reached, so read_from_address and write_to_address (which call the
planner unconditionally after their length checks) return a result exactly
under this precondition — their embeddings are `none` iff the bound fails. -/
theorem c9_planner_termination (start len : Nat) (hs : start < 65536) (h0 : 0 < len) :
    (planTerminates start len ↔ start + len ≤ 65536) ∧
    (∀ wAck rOk data s, read_from_address wAck rOk start data (len : Int) s = none ↔
      65536 < start + len) ∧
    (∀ wAck rOk data verify s, (len : Int) % 2 = 0 →
      (write_to_address wAck rOk start data (len : Int) verify s = none ↔
        65536 < start + len)) := by
  refine ⟨⟨?_, ?_⟩, ?_, ?_⟩
  · rintro ⟨fuel, cs, hrun⟩
    by_contra hgt
    push_neg at hgt
    obtain ⟨s2, heq, _⟩ := planRunAux_stuck (start + len) ((start + len - 1) / 64)
      hgt (by omega) fuel (planInit start) (by simpa [planInit] using hs)
    rw [heq] at hrun
    exact Sum.noConfusion hrun
  · intro hle
    exact ⟨65536, specPlan start len, get_some_inr start len _ (get_eq_specPlan start len h0 hs hle)⟩
  · intro wAck rOk data s
    constructor
    · intro hnone
      by_contra hgt
      push_neg at hgt
      have hget : get_array_slice_locs (start % 65536) len = some (specPlan start len) := by
        rw [Nat.mod_eq_of_lt hs]
        exact get_eq_specPlan start len h0 hs hgt
      exact read_ne_none_of_some_plan wAck rOk start data len h0 _ hget s hnone
    · intro hover
      exact read_none_of_overflow wAck rOk start data len s hs h0 hover
  · intro wAck rOk data verify s heven
    constructor
    · intro hnone
      by_contra hgt
      push_neg at hgt
      have hget : get_array_slice_locs (start % 65536) len = some (specPlan start len) := by
        rw [Nat.mod_eq_of_lt hs]
        exact get_eq_specPlan start len h0 hs hgt
      exact write_ne_none_of_some_plan wAck rOk start data len h0 heven verify _ hget s hnone
    · intro hover
      exact write_none_of_overflow wAck rOk start data len verify s hs h0 heven hover

theorem c9_planner_termination_witness :
    (60 : Nat) < 65536 ∧ (0 : Nat) < 8 ∧
      (planTerminates 60 8 ↔ 60 + 8 ≤ 65536) ∧
      (read_from_address oAll oAll 60 (List.replicate 8 0) (8 : Int) initS = none ↔
        65536 < 60 + 8) ∧
      ((8 : Int) % 2 = 0 →
        (write_to_address oAll oAll 60 (List.replicate 8 0) (8 : Int) true initS = none ↔
          65536 < 60 + 8)) :=
  ⟨by decide, by decide, (c9_planner_termination 60 8 (by decide) (by decide)).1,
    (c9_planner_termination 60 8 (by decide) (by decide)).2.1 oAll oAll (List.replicate 8 0) initS,
    (c9_planner_termination 60 8 (by decide) (by decide)).2.2 oAll oAll (List.replicate 8 0) true initS⟩

/-! ## C10: the fixed 16-entry segment table -/

theorem planRunAux_add_inl (endAddr endPage a b : Nat) (s s2 : PlanState)
    (h : planRunAux endAddr endPage a s = Sum.inl s2) :
    planRunAux endAddr endPage (a + b) s = planRunAux endAddr endPage b s2 := by
  rw [planRunAux_add endAddr endPage a b s, h]

theorem planRunAux_add_inr (endAddr endPage a b : Nat) (s : PlanState) (cs : List Chunk)
    (h : planRunAux endAddr endPage a s = Sum.inr cs) :
    planRunAux endAddr endPage (a + b) s = Sum.inr cs := by
  rw [planRunAux_add endAddr endPage a b s, h]

section

set_option maxRecDepth 1000000

/-- C10 counterexample: the claimed equivalence — all table indices in bounds
iff the byte range touches at most 16 pages — fails at start 65535, length 2:
the range [65535, 65537) touches two pages (pagesTouched = 2 ≤ 16), but the
wrapping scan keeps opening segments, and after 1100 iterations it has already
written 18 table rows, so indices 16 and 17 were used out of bounds. -/
theorem c10_counterexample :
    ¬ (∀ start len : Nat, start < 65536 → 0 < len →
        (idxSafe start len ↔ pagesTouched start len ≤ 16)) := by
  intro h
  have hsafe : idxSafe 65535 2 := (h 65535 2 (by decide) (by decide)).2 (by decide)
  have h18 : chunksCountAt 65535 2 1100 = 18 := by decide
  have h16 := hsafe 1100
  omega

end

/-- C10 amended: restricted to requests that stay inside the 16-bit address
space (start_address + data_length ≤ 65536), every index used in the fixed
16x2 segment table is in bounds if and only if the requested byte range
touches at most 16 of the 64-byte pages — an undocumented capacity of at most
16 page segments (hence at most 1024 bytes, fewer for unaligned ranges) per
call.  (For overflowing requests the scan wraps and overruns the table even
though the mathematical range touches at most 16 pages, see the
counterexample.) -/
theorem c10_capacity (start len : Nat) (hs : start < 65536) (h0 : 0 < len)
    (hb : start + len ≤ 65536) :
    idxSafe start len ↔ pagesTouched start len ≤ 16 := by
  have hinr := get_some_inr start len _ (get_eq_specPlan start len h0 hs hb)
  have hlen : (specPlan start len).length = pagesTouched start len := by
    rw [specPlan_length len start h0]
    rfl
  constructor
  · intro hsafe
    have h16 := hsafe 65536
    unfold chunksCountAt at h16
    rw [hinr] at h16
    simp only [runLenOf] at h16
    omega
  · intro hpg fuel
    unfold chunksCountAt
    by_cases hf : fuel ≤ 65536
    · cases hrun : planRunAux (start + len) ((start + len - 1) / 64) fuel (planInit start) with
      | inl s2 =>
        have hrest : planRunAux (start + len) ((start + len - 1) / 64) (65536 - fuel) s2 =
            Sum.inr (specPlan start len) := by
          have h2 := planRunAux_add_inl (start + len) ((start + len - 1) / 64) fuel
            (65536 - fuel) (planInit start) s2 hrun
          rw [show fuel + (65536 - fuel) = 65536 from by omega] at h2
          rw [← h2]
          exact hinr
        have hmono := planRunAux_len_mono (start + len) ((start + len - 1) / 64)
          (65536 - fuel) s2
        rw [hrest] at hmono
        simp only [runLenOf] at hmono ⊢
        omega
      | inr cs =>
        have h2 := planRunAux_add_inr (start + len) ((start + len - 1) / 64) fuel
          (65536 - fuel) (planInit start) cs hrun
        rw [show fuel + (65536 - fuel) = 65536 from by omega] at h2
        rw [h2] at hinr
        simp only [Sum.inr.injEq] at hinr
        simp only [runLenOf]
        rw [hinr]
        omega
    · have h2 := planRunAux_add_inr (start + len) ((start + len - 1) / 64) 65536
        (fuel - 65536) (planInit start) (specPlan start len) hinr
      rw [show 65536 + (fuel - 65536) = fuel from by omega] at h2
      rw [h2]
      simp only [runLenOf]
      omega

theorem c10_capacity_witness :
    (0 : Nat) < 65536 ∧ (0 : Nat) < 100 ∧ 0 + 100 ≤ 65536 ∧
      (idxSafe 0 100 ↔ pagesTouched 0 100 ≤ 16) :=
  ⟨by decide, by decide, by decide, c10_capacity 0 100 (by decide) (by decide) (by decide)⟩

/-! ## C5 and C6: length validation -/

/-- C5: for every non-positive data_length, both read_from_address and
write_to_address return EEPROM_DATA_LENGTH_ZERO with the device-handle state
returned exactly as passed in — in particular the trace is unchanged, so no
start condition, byte transfer, block read, stop condition, lock, unlock,
write-protect toggle or delay is issued. -/
theorem c5_zero_length_no_bus (wAck rOk : Nat → Bool) (address : Nat) (data : List Nat)
    (dl : Int) (verify : Bool) (s : S) (h : dl ≤ 0) :
    read_from_address wAck rOk address data dl s = some (EEPROM_DATA_LENGTH_ZERO, data, s) ∧
    write_to_address wAck rOk address data dl verify s = some (EEPROM_DATA_LENGTH_ZERO, s) := by
  constructor
  · unfold read_from_address
    rw [if_pos h]
  · unfold write_to_address
    rw [if_pos h]

theorem c5_zero_length_no_bus_witness :
    (0 : Int) ≤ 0 ∧
      (read_from_address oAll oAll 3 [5] 0 initS = some (EEPROM_DATA_LENGTH_ZERO, [5], initS) ∧
       write_to_address oAll oAll 3 [5] 0 true initS = some (EEPROM_DATA_LENGTH_ZERO, initS)) :=
  ⟨by decide, c5_zero_length_no_bus oAll oAll 3 [5] 0 true initS (by decide)⟩

/-- C6: for every odd positive data_length, write_to_address returns
EEPROM_DATA_LENGTH_ODD with the device-handle state returned exactly as
passed in: no bus transaction is issued and the write-protect gate is not
touched (in particular not enabled). -/
theorem c6_odd_length_rejected (wAck rOk : Nat → Bool) (address : Nat) (data : List Nat)
    (dl : Int) (verify : Bool) (s : S) (h0 : 0 < dl) (hodd : dl % 2 ≠ 0) :
    write_to_address wAck rOk address data dl verify s = some (EEPROM_DATA_LENGTH_ODD, s) := by
  unfold write_to_address
  rw [if_neg (by omega), if_pos hodd]

theorem c6_odd_length_rejected_witness :
    (0 : Int) < 3 ∧ (3 : Int) % 2 ≠ 0 ∧
      write_to_address oAll oAll 9 [1, 2, 3] 3 true initS = some (EEPROM_DATA_LENGTH_ODD, initS) :=
  ⟨by decide, by decide, c6_odd_length_rejected oAll oAll 9 [1, 2, 3] 3 true initS
    (by decide) (by decide)⟩

/-! ## C1: the write-protect gate on failure paths (code bug) -/

/-- C1 fails on the code: in the single-page branch of write_to_address, the
address-phase failure path (src/STM24256.cpp lines 279-284) returns without
calling disable_write(), unlike the corresponding multi-page path (line 313).
Concretely: a 2-byte write at address 0 whose array-select byte is not
acknowledged returns EEPROM_SET_OP_ADDRESS_FAIL_MEM_ARRAY with the
write-protect line still at EEPROM_WRITE_ENABLE, although the call entered
with it disabled; the same failure on a 2-segment write leaves it disabled. -/
theorem c1_write_protect_left_enabled :
    (write_to_address oNone oAll 0 [1, 2] 2 false initS).map (fun r => (r.1, r.2.wc)) =
      some (EEPROM_SET_OP_ADDRESS_FAIL_MEM_ARRAY, EEPROM_WRITE_ENABLE) ∧
    (write_to_address oNone oAll 60 [1, 2, 3, 4, 5, 6, 7, 8] 8 false initS).map
        (fun r => (r.1, r.2.wc)) =
      some (EEPROM_SET_OP_ADDRESS_FAIL_MEM_ARRAY, EEPROM_WRITE_DISABLE) ∧
    initS.wc = EEPROM_WRITE_DISABLE := by
  refine ⟨by decide, by decide, by decide⟩

/-! ## C2: the write/read round trip (code bug) -/

section

set_option maxRecDepth 1000000

/-- C2 fails on the code: for three or more segments the interior start index
is the PREVIOUS segment's length instead of the cumulative sum
(src/STM24256.cpp lines 210-211 and 329-330).  Concretely: writing 68 bytes at
address 62 (segments (62,2), (64,64), (128,2)) with verify=true succeeds
(both because the same mis-indexing is used by the verification read-back and
because bytes 66..67 of the data coincide with the model of the uninitialised
verification buffer), the subsequent read also returns EEPROM_OK on an
error-free bus, yet the returned bytes differ from the data written: offsets
66..67 of the output buffer are never filled. -/
theorem c2_round_trip_indexing_bug :
    c2run = some (EEPROM_OK, EEPROM_OK, c2expected) ∧ c2expected ≠ c2data := by
  constructor
  · decide
  · decide

end

/-! ## C7: the address phase and its distinct failure statuses -/

theorem setOp_status (wAck : Nat → Bool) (address : Nat) (send_stop : Bool) (s : S) :
    (set_operation_address wAck address send_stop s).1 =
      if wAck s.wCount = false then EEPROM_SET_OP_ADDRESS_FAIL_MEM_ARRAY
      else if wAck (s.wCount + 1) = false then EEPROM_SET_OP_ADDRESS_FAIL_MSB
      else if wAck (s.wCount + 2) = false then EEPROM_SET_OP_ADDRESS_FAIL_LSB
      else EEPROM_OK := by
  cases h0 : wAck s.wCount <;> cases h1 : wAck (s.wCount + 1) <;> cases h2 : wAck (s.wCount + 2) <;>
    simp [set_operation_address, i2c_write, i2c_lock, i2c_start, devWriteByte,
      EEPROM_MEM_ARRAY_ADDRESS_WRITE, I2C_ACK, I2C_NoACK, h0, h1, h2]

theorem read_propagates_setOp_fail (wAck rOk : Nat → Bool) (address : Nat) (data : List Nat)
    (len : Nat) (h0 : 0 < len) (chunks : List Chunk)
    (hget : get_array_slice_locs (address % 65536) len = some chunks) (s : S)
    (st : Nat) (hst : st ≠ EEPROM_OK)
    (hfail : ∀ a stop s2, s2.wCount = s.wCount → (set_operation_address wAck a stop s2).1 = st) :
    (read_from_address wAck rOk address data (len : Int) s).map (fun r => r.1) = some st := by
  have hpos : ¬ ((len : Int) ≤ 0) := by omega
  have hwc : (i2c_lock s).wCount = s.wCount := rfl
  simp only [read_from_address, hpos, if_false, Int.toNat_natCast, hget]
  by_cases hb : chunks.length - 1 = 0
  · simp only [hb, if_pos, reduceIte]
    rw [hfail (address % 65536) true (i2c_lock s) hwc]
    rw [if_pos hst]
    simp
  · rw [if_neg hb]
    rw [List.range_succ_eq_map]
    simp only [readSegs]
    rw [hfail (chunks.getD 0 ⟨0, 0⟩).address true (i2c_lock s) hwc]
    rw [if_pos hst, if_pos hst]
    simp

theorem write_propagates_setOp_fail (wAck rOk : Nat → Bool) (address : Nat) (data : List Nat)
    (len : Nat) (h0 : 0 < len) (heven : (len : Int) % 2 = 0) (verify : Bool)
    (chunks : List Chunk)
    (hget : get_array_slice_locs (address % 65536) len = some chunks) (s : S)
    (st : Nat) (hst : st ≠ EEPROM_OK)
    (hfail : ∀ a stop s2, s2.wCount = s.wCount → (set_operation_address wAck a stop s2).1 = st) :
    (write_to_address wAck rOk address data (len : Int) verify s).map (fun r => r.1) =
      some st := by
  have hpos : ¬ ((len : Int) ≤ 0) := by omega
  have hodd : ¬ ((len : Int) % 2 ≠ 0) := by simp [heven]
  have hwc : (enable_write (i2c_lock s)).wCount = s.wCount := rfl
  have hcore : ∃ s2, writeCore wAck chunks data len (address % 65536)
      (enable_write (i2c_lock s)) = (some st, s2) := by
    simp only [writeCore]
    by_cases hb : chunks.length - 1 = 0
    · rw [if_pos hb]
      rw [hfail (address % 65536) false (enable_write (i2c_lock s)) hwc]
      rw [if_pos hst]
      exact ⟨_, rfl⟩
    · rw [if_neg hb]
      rw [List.range_succ_eq_map]
      simp only [writeSegs]
      rw [hfail (chunks.getD 0 ⟨0, 0⟩).address false (enable_write (i2c_lock s)) hwc]
      rw [if_pos hst, if_pos hst]
      exact ⟨_, rfl⟩
  obtain ⟨s2, hcore⟩ := hcore
  simp [write_to_address, hpos, hodd, Int.toNat_natCast, hget, hcore]

/-- C7: (1) in set_operation_address the first unacknowledged transmitted byte
determines the result — array-select no-ack gives
EEPROM_SET_OP_ADDRESS_FAIL_MEM_ARRAY, address-high-byte no-ack gives
EEPROM_SET_OP_ADDRESS_FAIL_MSB, address-low-byte no-ack gives
EEPROM_SET_OP_ADDRESS_FAIL_LSB; (2) the three statuses are pairwise distinct
and distinct from EEPROM_OK; (3) read_from_address and write_to_address
propagate the status of a failing address phase unchanged as the call's
result, shown for the oracle that refuses exactly the n-th transmitted byte of
a fresh call, for each of the three address-phase positions, on both the
single-page and the multi-page branch. -/
theorem c7_address_phase_errors :
    (∀ wAck address send_stop s,
      (set_operation_address wAck address send_stop s).1 =
        if wAck s.wCount = false then EEPROM_SET_OP_ADDRESS_FAIL_MEM_ARRAY
        else if wAck (s.wCount + 1) = false then EEPROM_SET_OP_ADDRESS_FAIL_MSB
        else if wAck (s.wCount + 2) = false then EEPROM_SET_OP_ADDRESS_FAIL_LSB
        else EEPROM_OK) ∧
    (EEPROM_SET_OP_ADDRESS_FAIL_MEM_ARRAY ≠ EEPROM_SET_OP_ADDRESS_FAIL_MSB ∧
     EEPROM_SET_OP_ADDRESS_FAIL_MEM_ARRAY ≠ EEPROM_SET_OP_ADDRESS_FAIL_LSB ∧
     EEPROM_SET_OP_ADDRESS_FAIL_MSB ≠ EEPROM_SET_OP_ADDRESS_FAIL_LSB ∧
     EEPROM_SET_OP_ADDRESS_FAIL_MEM_ARRAY ≠ EEPROM_OK ∧
     EEPROM_SET_OP_ADDRESS_FAIL_MSB ≠ EEPROM_OK ∧
     EEPROM_SET_OP_ADDRESS_FAIL_LSB ≠ EEPROM_OK) ∧
    (∀ (n start len : Nat) (data : List Nat) (rOk : Nat → Bool), n < 3 → 0 < len → start + len ≤ 65536 →
      start < 65536 →
      (read_from_address (oFailAt n) rOk start data (len : Int) initS).map (fun r => r.1) =
        some (if n = 0 then EEPROM_SET_OP_ADDRESS_FAIL_MEM_ARRAY
          else if n = 1 then EEPROM_SET_OP_ADDRESS_FAIL_MSB
          else EEPROM_SET_OP_ADDRESS_FAIL_LSB)) ∧
    (∀ (n start len : Nat) (data : List Nat) (rOk : Nat → Bool) (verify : Bool), n < 3 → 0 < len → start + len ≤ 65536 →
      start < 65536 → (len : Int) % 2 = 0 →
      (write_to_address (oFailAt n) rOk start data (len : Int) verify initS).map
          (fun r => r.1) =
        some (if n = 0 then EEPROM_SET_OP_ADDRESS_FAIL_MEM_ARRAY
          else if n = 1 then EEPROM_SET_OP_ADDRESS_FAIL_MSB
          else EEPROM_SET_OP_ADDRESS_FAIL_LSB)) := by
  refine ⟨setOp_status, by decide, ?_, ?_⟩
  · intro n start len data rOk hn h0 hb hs
    have hget : get_array_slice_locs (start % 65536) len = some (specPlan start len) := by
      rw [Nat.mod_eq_of_lt hs]
      exact get_eq_specPlan start len h0 hs hb
    refine read_propagates_setOp_fail (oFailAt n) rOk start data len h0 _ hget initS _
      (by interval_cases n <;> decide) ?_
    intro a stop s2 hw
    rw [setOp_status, hw]
    interval_cases n <;> simp [oFailAt, initS]
  · intro n start len data rOk verify hn h0 hb hs heven
    have hget : get_array_slice_locs (start % 65536) len = some (specPlan start len) := by
      rw [Nat.mod_eq_of_lt hs]
      exact get_eq_specPlan start len h0 hs hb
    refine write_propagates_setOp_fail (oFailAt n) rOk start data len h0 heven verify _ hget
      initS _ (by interval_cases n <;> decide) ?_
    intro a stop s2 hw
    rw [setOp_status, hw]
    interval_cases n <;> simp [oFailAt, initS]

theorem c7_address_phase_errors_witness :
    ((2 : Nat) < 3 ∧ (0 : Nat) < 4 ∧ 60 + 4 ≤ 65536 ∧ (60 : Nat) < 65536 ∧
      ((4 : Nat) : Int) % 2 = 0) ∧
    (read_from_address (oFailAt 2) oAll 60 [0, 0, 0, 0] ((4 : Nat) : Int) initS).map
        (fun r => r.1) =
      some (if 2 = 0 then EEPROM_SET_OP_ADDRESS_FAIL_MEM_ARRAY
        else if 2 = 1 then EEPROM_SET_OP_ADDRESS_FAIL_MSB
        else EEPROM_SET_OP_ADDRESS_FAIL_LSB) ∧
    (write_to_address (oFailAt 2) oAll 60 [0, 0, 0, 0] ((4 : Nat) : Int) true initS).map
        (fun r => r.1) =
      some (if 2 = 0 then EEPROM_SET_OP_ADDRESS_FAIL_MEM_ARRAY
        else if 2 = 1 then EEPROM_SET_OP_ADDRESS_FAIL_MSB
        else EEPROM_SET_OP_ADDRESS_FAIL_LSB) :=
  ⟨⟨by decide, by decide, by decide, by decide, by decide⟩,
    c7_address_phase_errors.2.2.1 2 60 4 [0, 0, 0, 0] oAll (by decide) (by decide)
      (by decide) (by decide),
    c7_address_phase_errors.2.2.2 2 60 4 [0, 0, 0, 0] oAll true (by decide) (by decide)
      (by decide) (by decide) (by decide)⟩

/-! ## Error-free runs and their traces (C8 machinery) -/

theorem setOp_ok (address : Nat) (send_stop : Bool) (s : S) :
    set_operation_address oAll address send_stop s =
      (EEPROM_OK,
        { s with phase := if send_stop then DevPhase.idle else DevPhase.writing,
                 ptr := (address % 65536 / 256 * 256 + address % 65536 % 256) % 65536,
                 wCount := s.wCount + 3,
                 trace := s.trace ++ setOpTr address send_stop s.lockDepth }) := by
  cases send_stop <;>
    simp [set_operation_address, i2c_write, i2c_lock, i2c_start, i2c_stop, i2c_unlock,
      devWriteByte, oAll, EEPROM_MEM_ARRAY_ADDRESS_WRITE, I2C_ACK, setOpTr]

theorem i2c_read_ok (len : Nat) (s : S) :
    i2c_read oAll EEPROM_MEM_ARRAY_ADDRESS_READ len s =
      (I2C_NoACK, readBytes s len,
        { s with rCount := s.rCount + 1, ptr := (s.ptr + len) % 65536,
                 phase := DevPhase.idle,
                 trace := s.trace ++
                   [Event.readBlockEv EEPROM_MEM_ARRAY_ADDRESS_READ len true s.lockDepth] }) := by
  simp [i2c_read, oAll]

theorem writeDataBytes_ok : ∀ (bytes : List Nat) (s : S),
    writeDataBytes oAll bytes s = (true, writeBytesOkS bytes s) := by
  intro bytes
  induction bytes with
  | nil =>
    intro s
    rfl
  | cons b rest ih =>
    intro s
    simp [writeDataBytes, writeBytesOkS, i2c_write, oAll, I2C_ACK, ih]

theorem devWriteByte_fields (b : Nat) (s : S) :
    (devWriteByte b s).trace = s.trace ∧ (devWriteByte b s).lockDepth = s.lockDepth ∧
    (devWriteByte b s).wc = s.wc ∧ (devWriteByte b s).rCount = s.rCount := by
  cases hph : s.phase <;> simp [devWriteByte, hph]
  split <;> simp

theorem writeBytesOkS_fields : ∀ (bytes : List Nat) (s : S),
    (writeBytesOkS bytes s).trace =
      s.trace ++ bytes.map (fun b => Event.writeByteEv b true s.lockDepth) ∧
    (writeBytesOkS bytes s).lockDepth = s.lockDepth ∧
    (writeBytesOkS bytes s).wc = s.wc ∧
    (writeBytesOkS bytes s).rCount = s.rCount := by
  intro bytes
  induction bytes with
  | nil =>
    intro s
    simp [writeBytesOkS]
  | cons b rest ih =>
    intro s
    have hdev := devWriteByte_fields b
      { s with wCount := s.wCount + 1,
               trace := s.trace ++ [Event.writeByteEv b true s.lockDepth] }
    obtain ⟨htr, hld, hwc, hrc⟩ := hdev
    obtain ⟨htr2, hld2, hwc2, hrc2⟩ := ih (devWriteByte b
      { s with wCount := s.wCount + 1,
               trace := s.trace ++ [Event.writeByteEv b true s.lockDepth] })
    refine ⟨?_, ?_, ?_, ?_⟩
    · rw [writeBytesOkS, htr2, htr, hld]
      simp
    · rw [writeBytesOkS, hld2, hld]
    · rw [writeBytesOkS, hwc2, hwc]
    · rw [writeBytesOkS, hrc2, hrc]

theorem readSegs_ok (chunks : List Chunk) (boundaries : Nat) :
    ∀ (idxs : List Nat) (data : List Nat) (s : S),
      readSegs oAll oAll chunks boundaries idxs data s =
        (EEPROM_OK, readSegsOkS chunks boundaries idxs data s) := by
  intro idxs
  induction idxs with
  | nil =>
    intro data s
    rfl
  | cons boundary rest ih =>
    intro data s
    simp [readSegs, readSegsOkS, setOp_ok, i2c_read_ok, ih]

theorem writeSegs_ok (chunks : List Chunk) (boundaries : Nat) (data : List Nat) :
    ∀ (idxs : List Nat) (s : S),
      writeSegs oAll chunks boundaries data idxs s =
        (EEPROM_OK, writeSegsOkS chunks boundaries data idxs s) := by
  intro idxs
  induction idxs with
  | nil =>
    intro s
    rfl
  | cons boundary rest ih =>
    intro s
    simp [writeSegs, writeSegsOkS, setOp_ok, writeDataBytes_ok, ih]

theorem readSegsOkS_trace (chunks : List Chunk) (boundaries : Nat) :
    ∀ (m b : Nat), b + m = boundaries → ∀ (data : List Nat) (s : S), s.lockDepth = 1 →
      (readSegsOkS chunks boundaries (List.range' b (m + 1)) data s).2.trace =
        s.trace ++ sepWaits ((List.range' b (m + 1)).map
          (fun i => readSegTr (chunks.getD i ⟨0, 0⟩))) ∧
      (readSegsOkS chunks boundaries (List.range' b (m + 1)) data s).2.lockDepth = 1 := by
  intro m
  induction m with
  | zero =>
    intro b hb data s hd
    have hbb : b = boundaries := by omega
    subst hbb
    rw [List.range'_succ b 0 1]
    simp [readSegsOkS, setOp_ok, i2c_read_ok, sepWaits, readSegTr, hd, List.range'_zero]
  | succ m ih =>
    intro b hb data s hd
    have hbne : b ≠ boundaries := by omega
    obtain ⟨htr, hld⟩ := ih (b + 1) (by omega)
      (writeSlice data (if b = 0 then 0 else (chunks.getD (b - 1) ⟨0, 0⟩).length)
        (i2c_read oAll EEPROM_MEM_ARRAY_ADDRESS_READ (chunks.getD b ⟨0, 0⟩).length
          ((set_operation_address oAll (chunks.getD b ⟨0, 0⟩).address true s).2)).2.1)
      (wait_us 5000 (i2c_read oAll EEPROM_MEM_ARRAY_ADDRESS_READ (chunks.getD b ⟨0, 0⟩).length
        ((set_operation_address oAll (chunks.getD b ⟨0, 0⟩).address true s).2)).2.2)
      (by simp [setOp_ok, i2c_read_ok, wait_us, hd])
    have hstep : readSegsOkS chunks boundaries (List.range' b (m + 1 + 1)) data s =
        readSegsOkS chunks boundaries (List.range' (b + 1) (m + 1))
          (writeSlice data (if b = 0 then 0 else (chunks.getD (b - 1) ⟨0, 0⟩).length)
            (i2c_read oAll EEPROM_MEM_ARRAY_ADDRESS_READ (chunks.getD b ⟨0, 0⟩).length
              ((set_operation_address oAll (chunks.getD b ⟨0, 0⟩).address true s).2)).2.1)
          (wait_us 5000 (i2c_read oAll EEPROM_MEM_ARRAY_ADDRESS_READ
            (chunks.getD b ⟨0, 0⟩).length
            ((set_operation_address oAll (chunks.getD b ⟨0, 0⟩).address true s).2)).2.2) := by
      rw [List.range'_succ b (m + 1) 1]
      simp [readSegsOkS, hbne]
    rw [hstep, htr, hld]
    refine ⟨?_, rfl⟩
    rw [List.range'_succ b (m + 1) 1, List.range'_succ (b + 1) m 1]
    simp [setOp_ok, i2c_read_ok, wait_us, hd, sepWaits, readSegTr, List.append_assoc]

theorem writeBytesOkS_trace_eq (bytes : List Nat) (s : S) :
    (writeBytesOkS bytes s).trace =
      s.trace ++ bytes.map (fun b => Event.writeByteEv b true s.lockDepth) :=
  (writeBytesOkS_fields bytes s).1

theorem writeBytesOkS_lockDepth (bytes : List Nat) (s : S) :
    (writeBytesOkS bytes s).lockDepth = s.lockDepth :=
  (writeBytesOkS_fields bytes s).2.1

theorem writeSegsOkS_trace (chunks : List Chunk) (boundaries : Nat) (data : List Nat) :
    ∀ (m b : Nat), b + m = boundaries → ∀ (s : S), s.lockDepth = 1 →
      (writeSegsOkS chunks boundaries data (List.range' b (m + 1)) s).trace =
        s.trace ++ sepWaits ((List.range' b (m + 1)).map
          (fun i => writeSegTr (chunks.getD i ⟨0, 0⟩) (segBytes data chunks i))) ∧
      (writeSegsOkS chunks boundaries data (List.range' b (m + 1)) s).lockDepth = 1 := by
  intro m
  induction m with
  | zero =>
    intro b hb s hd
    have hbb : b = boundaries := by omega
    subst hbb
    rw [List.range'_succ b 0 1]
    simp [writeSegsOkS, List.range'_zero, i2c_stop, writeBytesOkS_trace_eq,
      writeBytesOkS_lockDepth, setOp_ok, sepWaits, writeSegTr, hd, List.append_assoc]
  | succ m ih =>
    intro b hb s hd
    have hbne : b ≠ boundaries := by omega
    obtain ⟨htr, hld⟩ := ih (b + 1) (by omega)
      (wait_us 5000 (i2c_stop (writeBytesOkS (segBytes data chunks b)
        ((set_operation_address oAll (chunks.getD b ⟨0, 0⟩).address false s).2))))
      (by simp [setOp_ok, i2c_stop, wait_us, writeBytesOkS_lockDepth, hd])
    have hstep : writeSegsOkS chunks boundaries data (List.range' b (m + 1 + 1)) s =
        writeSegsOkS chunks boundaries data (List.range' (b + 1) (m + 1))
          (wait_us 5000 (i2c_stop (writeBytesOkS (segBytes data chunks b)
            ((set_operation_address oAll (chunks.getD b ⟨0, 0⟩).address false s).2)))) := by
      rw [List.range'_succ b (m + 1) 1]
      simp [writeSegsOkS, hbne]
    rw [hstep, htr, hld]
    refine ⟨?_, rfl⟩
    rw [List.range'_succ b (m + 1) 1, List.range'_succ (b + 1) m 1]
    simp [setOp_ok, i2c_stop, wait_us, writeBytesOkS_trace_eq, writeBytesOkS_lockDepth,
      hd, sepWaits, writeSegTr, List.append_assoc]

theorem specPlan_len1 (start len : Nat) (h0 : 0 < len)
    (h1 : (specPlan start len).length - 1 = 0) :
    specPlan start len = [{ address := start, length := len }] := by
  have hl := specPlan_length len start h0
  apply specPlan_eq_single
  omega

theorem range_map_getD (f : Chunk → List Event) :
    ∀ (cs : List Chunk),
      (List.range cs.length).map (fun b => f (cs.getD b ⟨0, 0⟩)) = cs.map f := by
  intro cs
  induction cs with
  | nil => rfl
  | cons c rest ih =>
    rw [List.length_cons, List.range_succ_eq_map]
    simp only [List.map_cons, List.map_map, List.getD_cons_zero, Function.comp_def,
      List.getD_cons_succ]
    rw [ih]

theorem read_ok_trace (address : Nat) (buf : List Nat) (len : Nat) (h0 : 0 < len)
    (hs : address < 65536) (hb : address + len ≤ 65536) (s : S) (hd : s.lockDepth = 0) :
    (read_from_address oAll oAll address buf (len : Int) s).map
        (fun r => (r.1, r.2.2.trace, r.2.2.lockDepth)) =
      some (EEPROM_OK,
        s.trace ++ (Event.lockEv 0 ::
          (sepWaits ((specPlan address len).map readSegTr) ++ [Event.unlockEv 0])), 0) := by
  have hpos : ¬ ((len : Int) ≤ 0) := by omega
  have hmod : address % 65536 = address := Nat.mod_eq_of_lt hs
  have hget : get_array_slice_locs address len = some (specPlan address len) :=
    get_eq_specPlan address len h0 hs hb
  by_cases hb1 : (specPlan address len).length - 1 = 0
  · have hsingle := specPlan_len1 address len h0 hb1
    simp [read_from_address, hpos, Int.toNat_natCast, hmod, hget, hb1, hsingle,
      setOp_ok, i2c_read_ok, i2c_lock, i2c_unlock, sepWaits, readSegTr, hd,
      List.append_assoc]
  · have hlen : (specPlan address len).length = ((specPlan address len).length - 1) + 1 := by
      have hl := specPlan_length len address h0
      omega
    have hrsegs := readSegs_ok (specPlan address len) ((specPlan address len).length - 1)
      (List.range ((specPlan address len).length - 1 + 1)) buf (i2c_lock s)
    obtain ⟨htrace, hldepth⟩ := readSegsOkS_trace (specPlan address len)
      ((specPlan address len).length - 1) ((specPlan address len).length - 1) 0 (by omega)
      buf (i2c_lock s) (by simp [i2c_lock, hd])
    have hmap : (List.range ((specPlan address len).length - 1 + 1)).map
        (fun i => readSegTr ((specPlan address len).getD i ⟨0, 0⟩)) =
        (specPlan address len).map readSegTr := by
      rw [← hlen]
      exact range_map_getD readSegTr (specPlan address len)
    rw [← List.range_eq_range'] at htrace hldepth
    simp [read_from_address, hpos, Int.toNat_natCast, hmod, hget, hb1, hrsegs, htrace,
      hldepth, hmap, i2c_unlock, hd, List.append_assoc]
    simp [i2c_lock, hd, List.append_assoc]
    have hmap2 := hmap
    simp only [List.getD_eq_getElem?_getD] at hmap2
    rw [hmap2]

theorem writeTail_ok_trace (address : Nat) (data : List Nat) (len : Nat) (h0 : 0 < len)
    (hs : address < 65536) (hb : address + len ≤ 65536) (verify : Bool) (s2 : S)
    (hd2 : s2.lockDepth = 1) :
    (writeTail oAll oAll address data (len : Int) verify s2).map
        (fun r => (r.2.trace, r.2.lockDepth)) =
      some (s2.trace ++ ([Event.wcEv EEPROM_WRITE_DISABLE, Event.unlockEv 0] ++
        (if verify then Event.waitEv 5000 :: (Event.lockEv 0 ::
          (sepWaits ((specPlan address len).map readSegTr) ++ [Event.unlockEv 0]))
        else [])), 0) := by
  cases verify with
  | false =>
    simp [writeTail, disable_write, i2c_unlock, hd2]
  | true =>
    have hd4 : (wait_us 5000 (i2c_unlock (disable_write s2))).lockDepth = 0 := by
      simp [wait_us, i2c_unlock, disable_write, hd2]
    have hro := read_ok_trace address (List.replicate len 0) len h0 hs hb
      (wait_us 5000 (i2c_unlock (disable_write s2))) hd4
    cases hr : read_from_address oAll oAll address (List.replicate len 0) (len : Int)
        (wait_us 5000 (i2c_unlock (disable_write s2))) with
    | none =>
      rw [hr] at hro
      exact Option.noConfusion hro
    | some r =>
      rw [hr] at hro
      rcases r with ⟨st, dv, s5⟩
      simp only [Option.map_some', Option.some.injEq, Prod.mk.injEq] at hro
      obtain ⟨hst, htr5, hld5⟩ := hro
      simp only [writeTail, Int.toNat_natCast, hr]
      rw [hst]
      by_cases hvm : verifyMismatch data dv len = true
      · simp [hvm, htr5, hld5, wait_us, i2c_unlock, disable_write, hd2, List.append_assoc]
      · simp [hvm, htr5, hld5, wait_us, i2c_unlock, disable_write, hd2, List.append_assoc]

theorem write_ok_trace (address : Nat) (data : List Nat) (len : Nat) (h0 : 0 < len)
    (hs : address < 65536) (hb : address + len ≤ 65536) (heven : (len : Int) % 2 = 0)
    (verify : Bool) (s : S) (hd : s.lockDepth = 0) :
    (write_to_address oAll oAll address data (len : Int) verify s).map
        (fun r => (r.2.trace, r.2.lockDepth)) =
      some (s.trace ++ (Event.lockEv 0 :: Event.wcEv EEPROM_WRITE_ENABLE ::
        (sepWaits (segTracesWrite (specPlan address len) data) ++
          ([Event.wcEv EEPROM_WRITE_DISABLE, Event.unlockEv 0] ++
            (if verify then Event.waitEv 5000 :: (Event.lockEv 0 ::
              (sepWaits ((specPlan address len).map readSegTr) ++ [Event.unlockEv 0]))
            else [])))), 0) := by
  have hpos : ¬ ((len : Int) ≤ 0) := by omega
  have hodd : ¬ ((len : Int) % 2 ≠ 0) := by simp [heven]
  have hmod : address % 65536 = address := Nat.mod_eq_of_lt hs
  have hget : get_array_slice_locs address len = some (specPlan address len) :=
    get_eq_specPlan address len h0 hs hb
  by_cases hb1 : (specPlan address len).length - 1 = 0
  · have hsingle := specPlan_len1 address len h0 hb1
    have hcore : writeCore oAll (specPlan address len) data len address
        (enable_write (i2c_lock s)) =
        (none, i2c_stop (writeBytesOkS (data.take len)
          ((set_operation_address oAll address false (enable_write (i2c_lock s))).2))) := by
      simp [writeCore, hb1, setOp_ok, writeDataBytes_ok]
    have htail := writeTail_ok_trace address data len h0 hs hb verify
      (i2c_stop (writeBytesOkS (data.take len)
        ((set_operation_address oAll address false (enable_write (i2c_lock s))).2)))
      (by simp [i2c_stop, writeBytesOkS_lockDepth, setOp_ok, enable_write, i2c_lock, hd])
    simp only [write_to_address, hpos, hodd, if_false, Int.toNat_natCast, hmod, hget, hcore]
    rw [htail]
    simp [i2c_stop, writeBytesOkS_trace_eq, writeBytesOkS_lockDepth, setOp_ok,
      enable_write, i2c_lock, hd, hsingle, segTracesWrite, segBytes, writeSegTr,
      sepWaits, List.append_assoc]
  · have hlen : (specPlan address len).length = ((specPlan address len).length - 1) + 1 := by
      have hl := specPlan_length len address h0
      omega
    have hcore : writeCore oAll (specPlan address len) data len address
        (enable_write (i2c_lock s)) =
        (none, writeSegsOkS (specPlan address len) ((specPlan address len).length - 1) data
          (List.range ((specPlan address len).length - 1 + 1)) (enable_write (i2c_lock s))) := by
      simp [writeCore, hb1, writeSegs_ok]
    obtain ⟨htrW, hldW⟩ := writeSegsOkS_trace (specPlan address len)
      ((specPlan address len).length - 1) data ((specPlan address len).length - 1) 0
      (by omega) (enable_write (i2c_lock s)) (by simp [enable_write, i2c_lock, hd])
    rw [← List.range_eq_range'] at htrW hldW
    have hmap2 : (List.range ((specPlan address len).length - 1 + 1)).map
        (fun i => writeSegTr ((specPlan address len).getD i ⟨0, 0⟩)
          (segBytes data (specPlan address len) i)) =
        segTracesWrite (specPlan address len) data := by
      rw [segTracesWrite, ← hlen]
    have htail := writeTail_ok_trace address data len h0 hs hb verify
      (writeSegsOkS (specPlan address len) ((specPlan address len).length - 1) data
        (List.range ((specPlan address len).length - 1 + 1)) (enable_write (i2c_lock s)))
      hldW
    simp only [write_to_address, hpos, hodd, if_false, Int.toNat_natCast, hmod, hget, hcore]
    rw [htail, htrW]
    have hmap3 := hmap2
    simp only [List.getD_eq_getElem?_getD] at hmap3
    simp [enable_write, i2c_lock, hd, List.append_assoc, hmap3]

theorem mem_sepWaits : ∀ (ts : List (List Event)) (e : Event), e ∈ sepWaits ts →
    (∃ t ∈ ts, e ∈ t) ∨ e = Event.waitEv 5000 := by
  intro ts
  induction ts with
  | nil =>
    intro e h
    cases h
  | cons t ts ih =>
    intro e h
    cases ts with
    | nil =>
      exact Or.inl ⟨t, by simp, by simpa [sepWaits] using h⟩
    | cons t2 ts2 =>
      rw [show sepWaits (t :: t2 :: ts2) = t ++ Event.waitEv 5000 :: sepWaits (t2 :: ts2)
        from rfl] at h
      rcases List.mem_append.1 h with h1 | h2
      · exact Or.inl ⟨t, by simp, h1⟩
      · rcases List.mem_cons.1 h2 with h3 | h4
        · exact Or.inr h3
        · rcases ih e h4 with ⟨t3, ht3, he⟩ | hw
          · exact Or.inl ⟨t3, by simp [List.mem_cons]; right; simpa using ht3, he⟩
          · exact Or.inr hw

theorem wait_not_mem_setOpTr (address : Nat) (stop : Bool) (d us : Nat) :
    Event.waitEv us ∉ setOpTr address stop d := by
  cases stop <;> simp [setOpTr]

theorem wait_not_mem_readSegTr (c : Chunk) (us : Nat) :
    Event.waitEv us ∉ readSegTr c := by
  intro h
  rcases List.mem_append.1 h with h1 | h2
  · exact wait_not_mem_setOpTr c.address true 1 us h1
  · simp at h2

theorem wait_not_mem_writeSegTr (c : Chunk) (bytes : List Nat) (us : Nat) :
    Event.waitEv us ∉ writeSegTr c bytes := by
  intro h
  rcases List.mem_append.1 h with h1 | h2
  · rcases List.mem_append.1 h1 with h3 | h4
    · exact wait_not_mem_setOpTr c.address false 1 us h3
    · rcases List.mem_map.1 h4 with ⟨b, _, hbe⟩
      exact Event.noConfusion hbe
  · simp at h2

theorem getLast_concat_unlock (l : List Event) :
    (l ++ [Event.unlockEv 0]).getLast? = some (Event.unlockEv 0) := by
  simp

/-- C8: in every read or write on an in-range request, the event trace is exactly the
    per-segment bus traces interleaved with `waitEv 5000` separators (`sepWaits` places one
    wait between consecutive segment traces and none after the last); every wait appearing
    between segments is exactly 5000 µs (the 5 ms settle delay), and the trace ends with the
    unlock, not a delay — so a settle delay follows each segment that is followed by another
    segment of the same call, and none follows the final segment. For a verifying write the
    single wait between the write phase and the verification read is likewise 5000 µs. -/
theorem c8_settle_delays (start len : Nat) (data buf : List Nat) (verify : Bool) (s : S)
    (hs : start < 65536) (h0 : 0 < len) (hb : start + len ≤ 65536)
    (heven : (len : Int) % 2 = 0) (hd : s.lockDepth = 0) (htr0 : s.trace = []) :
    ∃ chunks, get_array_slice_locs start len = some chunks ∧
      (read_from_address oAll oAll start buf (len : Int) s).map
          (fun r => (r.1, r.2.2.trace, r.2.2.lockDepth)) =
        some (EEPROM_OK, Event.lockEv 0 ::
          (sepWaits (chunks.map readSegTr) ++ [Event.unlockEv 0]), 0) ∧
      (write_to_address oAll oAll start data (len : Int) verify s).map
          (fun r => (r.2.trace, r.2.lockDepth)) =
        some (Event.lockEv 0 :: Event.wcEv EEPROM_WRITE_ENABLE ::
          (sepWaits (segTracesWrite chunks data) ++
            ([Event.wcEv EEPROM_WRITE_DISABLE, Event.unlockEv 0] ++
              (if verify then Event.waitEv 5000 :: (Event.lockEv 0 ::
                (sepWaits (chunks.map readSegTr) ++ [Event.unlockEv 0]))
              else []))), 0) ∧
      (∀ us, Event.waitEv us ∈ sepWaits (chunks.map readSegTr) → us = 5000) ∧
      (∀ us, Event.waitEv us ∈ sepWaits (segTracesWrite chunks data) → us = 5000) ∧
      (Event.lockEv 0 :: (sepWaits (chunks.map readSegTr) ++ [Event.unlockEv 0])).getLast? =
        some (Event.unlockEv 0) ∧
      (Event.lockEv 0 :: Event.wcEv EEPROM_WRITE_ENABLE ::
        (sepWaits (segTracesWrite chunks data) ++
          ([Event.wcEv EEPROM_WRITE_DISABLE, Event.unlockEv 0] ++
            (if verify then Event.waitEv 5000 :: (Event.lockEv 0 ::
              (sepWaits (chunks.map readSegTr) ++ [Event.unlockEv 0]))
            else [])))).getLast? = some (Event.unlockEv 0) := by
  refine ⟨specPlan start len, get_eq_specPlan start len h0 hs hb, ?_, ?_, ?_, ?_, ?_, ?_⟩
  · have h := read_ok_trace start buf len h0 hs hb s hd
    rw [htr0] at h
    simpa using h
  · have h := write_ok_trace start data len h0 hs hb heven verify s hd
    rw [htr0] at h
    simpa using h
  · intro us hmem
    rcases mem_sepWaits _ _ hmem with ⟨t, ht, he⟩ | hw
    · rcases List.mem_map.1 ht with ⟨c, _, rfl⟩
      exact absurd he (wait_not_mem_readSegTr c us)
    · injection hw
  · intro us hmem
    rcases mem_sepWaits _ _ hmem with ⟨t, ht, he⟩ | hw
    · rcases List.mem_map.1 ht with ⟨b, _, rfl⟩
      exact absurd he (wait_not_mem_writeSegTr _ _ us)
    · injection hw
  · have hsh : Event.lockEv 0 ::
        (sepWaits ((specPlan start len).map readSegTr) ++ [Event.unlockEv 0]) =
        (Event.lockEv 0 :: sepWaits ((specPlan start len).map readSegTr)) ++
          [Event.unlockEv 0] := by
      simp
    rw [hsh]
    exact getLast_concat_unlock _
  · cases verify with
    | false =>
      have hsh : Event.lockEv 0 :: Event.wcEv EEPROM_WRITE_ENABLE ::
          (sepWaits (segTracesWrite (specPlan start len) data) ++
            ([Event.wcEv EEPROM_WRITE_DISABLE, Event.unlockEv 0] ++
              (if false then Event.waitEv 5000 :: (Event.lockEv 0 ::
                (sepWaits ((specPlan start len).map readSegTr) ++ [Event.unlockEv 0]))
              else []))) =
          (Event.lockEv 0 :: Event.wcEv EEPROM_WRITE_ENABLE ::
            (sepWaits (segTracesWrite (specPlan start len) data) ++
              [Event.wcEv EEPROM_WRITE_DISABLE])) ++ [Event.unlockEv 0] := by
        simp
      rw [hsh]
      exact getLast_concat_unlock _
    | true =>
      have hsh : Event.lockEv 0 :: Event.wcEv EEPROM_WRITE_ENABLE ::
          (sepWaits (segTracesWrite (specPlan start len) data) ++
            ([Event.wcEv EEPROM_WRITE_DISABLE, Event.unlockEv 0] ++
              (if true then Event.waitEv 5000 :: (Event.lockEv 0 ::
                (sepWaits ((specPlan start len).map readSegTr) ++ [Event.unlockEv 0]))
              else []))) =
          (Event.lockEv 0 :: Event.wcEv EEPROM_WRITE_ENABLE ::
            (sepWaits (segTracesWrite (specPlan start len) data) ++
              ([Event.wcEv EEPROM_WRITE_DISABLE, Event.unlockEv 0] ++
                (Event.waitEv 5000 :: (Event.lockEv 0 ::
                  sepWaits ((specPlan start len).map readSegTr)))))) ++
            [Event.unlockEv 0] := by
        simp
      rw [hsh]
      exact getLast_concat_unlock _

theorem c8_settle_delays_witness :
    (60 : Nat) < 65536 ∧ 0 < 8 ∧ 60 + 8 ≤ 65536 ∧ ((8 : Nat) : Int) % 2 = 0 ∧
    initS.lockDepth = 0 ∧ initS.trace = [] ∧
    (∃ chunks, get_array_slice_locs 60 8 = some chunks ∧
      (read_from_address oAll oAll 60 [0, 0, 0, 0, 0, 0, 0, 0] ((8 : Nat) : Int) initS).map
          (fun r => (r.1, r.2.2.trace, r.2.2.lockDepth)) =
        some (EEPROM_OK, Event.lockEv 0 ::
          (sepWaits (chunks.map readSegTr) ++ [Event.unlockEv 0]), 0) ∧
      (write_to_address oAll oAll 60 [1, 2, 3, 4, 5, 6, 7, 8] ((8 : Nat) : Int) true initS).map
          (fun r => (r.2.trace, r.2.lockDepth)) =
        some (Event.lockEv 0 :: Event.wcEv EEPROM_WRITE_ENABLE ::
          (sepWaits (segTracesWrite chunks [1, 2, 3, 4, 5, 6, 7, 8]) ++
            ([Event.wcEv EEPROM_WRITE_DISABLE, Event.unlockEv 0] ++
              (if true then Event.waitEv 5000 :: (Event.lockEv 0 ::
                (sepWaits (chunks.map readSegTr) ++ [Event.unlockEv 0]))
              else []))), 0) ∧
      (∀ us, Event.waitEv us ∈ sepWaits (chunks.map readSegTr) → us = 5000) ∧
      (∀ us, Event.waitEv us ∈ sepWaits (segTracesWrite chunks [1, 2, 3, 4, 5, 6, 7, 8]) →
        us = 5000) ∧
      (Event.lockEv 0 :: (sepWaits (chunks.map readSegTr) ++ [Event.unlockEv 0])).getLast? =
        some (Event.unlockEv 0) ∧
      (Event.lockEv 0 :: Event.wcEv EEPROM_WRITE_ENABLE ::
        (sepWaits (segTracesWrite chunks [1, 2, 3, 4, 5, 6, 7, 8]) ++
          ([Event.wcEv EEPROM_WRITE_DISABLE, Event.unlockEv 0] ++
            (if true then Event.waitEv 5000 :: (Event.lockEv 0 ::
              (sepWaits (chunks.map readSegTr) ++ [Event.unlockEv 0]))
            else [])))).getLast? = some (Event.unlockEv 0)) :=
  ⟨by decide, by decide, by decide, by decide, rfl, rfl,
    c8_settle_delays 60 8 [1, 2, 3, 4, 5, 6, 7, 8] [0, 0, 0, 0, 0, 0, 0, 0] true initS
      (by decide) (by decide) (by decide) (by decide) rfl rfl⟩

theorem dropWhile_append_of_all {α : Type} (p : α → Bool) (P X : List α)
    (hP : P.all p = true) : (P ++ X).dropWhile p = X.dropWhile p := by
  induction P with
  | nil => rfl
  | cons a P ih =>
    simp only [List.all_cons, Bool.and_eq_true] at hP
    simp [List.dropWhile_cons, hP.1, ih hP.2]

theorem dropWhile_append_of_ne {α : Type} (p : α → Bool) (M T : List α)
    (h : M.dropWhile p ≠ []) : (M ++ T).dropWhile p = M.dropWhile p ++ T := by
  induction M with
  | nil => simp [List.dropWhile] at h
  | cons a M ih =>
    by_cases hpa : p a = true
    · simp only [List.dropWhile_cons, hpa, if_true] at h ⊢
      simp only [List.cons_append, List.dropWhile_cons, hpa, if_true]
      exact ih h
    · simp only [Bool.not_eq_true] at hpa
      simp [List.dropWhile_cons, hpa]

theorem all_of_mem_sub {α : Type} (p : α → Bool) (l l2 : List α)
    (hsub : ∀ x ∈ l2, x ∈ l) (h : l.all p = true) : l2.all p = true := by
  simp only [List.all_eq_true] at h ⊢
  exact fun x hx => h x (hsub x hx)

theorem held_of_decomp (P M T : List Event)
    (hP : P.all (fun e => !busEvent e) = true)
    (hM : M.all evOk = true)
    (hT : T.all (fun e => !busEvent e) = true) :
    heldThroughout (P ++ (M ++ T)) = true := by
  unfold heldThroughout busSpan trimFront
  rw [dropWhile_append_of_all _ P (M ++ T) hP]
  by_cases hM' : M.dropWhile (fun e => !busEvent e) = []
  · have hMall : M.all (fun e => !busEvent e) = true := by
      simp only [List.all_eq_true]
      exact fun x hx => List.dropWhile_eq_nil_iff.1 hM' x hx
    rw [dropWhile_append_of_all _ M T hMall]
    have hTnil : T.dropWhile (fun e => !busEvent e) = [] := by
      apply List.dropWhile_eq_nil_iff.2
      simp only [List.all_eq_true] at hT
      exact hT
    simp [hTnil]
  · rw [dropWhile_append_of_ne _ M T hM', List.reverse_append]
    have hTrev : (T.reverse).all (fun e => !busEvent e) = true := by
      simpa using hT
    rw [dropWhile_append_of_all _ T.reverse _ hTrev]
    apply all_of_mem_sub evOk M
    · intro x hx
      rw [List.mem_reverse] at hx
      have hx2 := (List.dropWhile_sublist _).subset hx
      rw [List.mem_reverse] at hx2
      exact (List.dropWhile_sublist _).subset hx2
    · exact hM

theorem evOk_setOpTr (address : Nat) (stop : Bool) :
    (setOpTr address stop 1).all evOk = true := by
  cases stop <;> simp [setOpTr, evOk]

theorem evOk_readSegTr (c : Chunk) : (readSegTr c).all evOk = true := by
  simp only [readSegTr, List.all_append]
  rw [evOk_setOpTr]
  simp [evOk]

theorem evOk_writeSegTr (c : Chunk) (bytes : List Nat) :
    (writeSegTr c bytes).all evOk = true := by
  simp only [writeSegTr, List.all_append]
  rw [evOk_setOpTr]
  simp [evOk, List.all_map]

theorem evOk_sepWaits (ts : List (List Event)) (h : ∀ t ∈ ts, t.all evOk = true) :
    (sepWaits ts).all evOk = true := by
  rw [List.all_eq_true]
  intro e he
  rcases mem_sepWaits ts e he with ⟨t, ht, he2⟩ | hw
  · exact List.all_eq_true.1 (h t ht) e he2
  · rw [hw]; rfl

theorem held_read_trace (chunks : List Chunk) :
    heldThroughout (Event.lockEv 0 ::
      (sepWaits (chunks.map readSegTr) ++ [Event.unlockEv 0])) = true := by
  have h := held_of_decomp [Event.lockEv 0] (sepWaits (chunks.map readSegTr))
      [Event.unlockEv 0] (by simp [busEvent])
      (evOk_sepWaits _ (by
        intro t ht
        rcases List.mem_map.1 ht with ⟨c, _, rfl⟩
        exact evOk_readSegTr c))
      (by simp [busEvent])
  simpa using h

theorem held_write_trace (chunks : List Chunk) (data : List Nat) :
    heldThroughout (Event.lockEv 0 :: Event.wcEv EEPROM_WRITE_ENABLE ::
      (sepWaits (segTracesWrite chunks data) ++
        [Event.wcEv EEPROM_WRITE_DISABLE, Event.unlockEv 0])) = true := by
  have h := held_of_decomp [Event.lockEv 0, Event.wcEv EEPROM_WRITE_ENABLE]
      (sepWaits (segTracesWrite chunks data))
      [Event.wcEv EEPROM_WRITE_DISABLE, Event.unlockEv 0] (by simp [busEvent])
      (evOk_sepWaits _ (by
        intro t ht
        rcases List.mem_map.1 ht with ⟨b, _, rfl⟩
        exact evOk_writeSegTr _ _))
      (by simp [busEvent])
  simpa using h

section
set_option maxRecDepth 1000000

/-- C4 counterexample: a verifying write (address 0, two bytes, error-free bus) produces
    a trace whose bus-active span contains a full lock release — the lock is released after
    the write phase, before the verification read re-acquires it — so the claim that the
    lock is held without interruption through the verification read is false. -/
theorem c4_counterexample :
    (write_to_address oAll oAll 0 [1, 2] (2 : Int) true initS).map
        (fun r => heldThroughout r.2.trace) = some false := by
  decide

end

/-- C4 amended: for every in-range read, and for every non-verifying write, the bus lock is
    held exclusively and without interruption across the whole bus-active span of the call —
    in particular it is never released between segments. A verifying write, however, is two
    separately locked spans: its trace splits as `t1 ++ waitEv 5000 :: t2` where `t1` (the
    write phase, lock held throughout) ends with a full release and `t2` (the verification
    read, lock held throughout) begins with a fresh acquisition, so the lock is NOT held
    through the verification read as the original claim states. -/
theorem c4_lock_span (start len : Nat) (data buf : List Nat) (s : S)
    (hs : start < 65536) (h0 : 0 < len) (hb : start + len ≤ 65536)
    (heven : (len : Int) % 2 = 0) (hd : s.lockDepth = 0) (htr0 : s.trace = []) :
    (read_from_address oAll oAll start buf (len : Int) s).map
        (fun r => heldThroughout r.2.2.trace) = some true ∧
    (write_to_address oAll oAll start data (len : Int) false s).map
        (fun r => heldThroughout r.2.trace) = some true ∧
    (∃ t1 t2,
      (write_to_address oAll oAll start data (len : Int) true s).map
          (fun r => r.2.trace) = some (t1 ++ Event.waitEv 5000 :: t2) ∧
      heldThroughout t1 = true ∧ heldThroughout t2 = true) := by
  refine ⟨?_, ?_, ?_⟩
  · have hr := read_ok_trace start buf len h0 hs hb s hd
    rw [htr0, List.nil_append] at hr
    rw [Option.map_eq_some'] at hr
    obtain ⟨r, hr1, hr2⟩ := hr
    simp only [Prod.mk.injEq] at hr2
    rw [hr1, Option.map_some', hr2.2.1, held_read_trace]
  · have hw := write_ok_trace start data len h0 hs hb heven false s hd
    rw [htr0, List.nil_append] at hw
    simp only [Bool.false_eq_true, if_false, List.append_nil] at hw
    rw [Option.map_eq_some'] at hw
    obtain ⟨r, hw1, hw2⟩ := hw
    simp only [Prod.mk.injEq] at hw2
    rw [hw1, Option.map_some', hw2.1]
    rw [held_write_trace]
  · have hw := write_ok_trace start data len h0 hs hb heven true s hd
    rw [htr0, List.nil_append] at hw
    simp only [if_true] at hw
    rw [Option.map_eq_some'] at hw
    obtain ⟨r, hw1, hw2⟩ := hw
    simp only [Prod.mk.injEq] at hw2
    refine ⟨Event.lockEv 0 :: Event.wcEv EEPROM_WRITE_ENABLE ::
        (sepWaits (segTracesWrite (specPlan start len) data) ++
          [Event.wcEv EEPROM_WRITE_DISABLE, Event.unlockEv 0]),
      Event.lockEv 0 ::
        (sepWaits ((specPlan start len).map readSegTr) ++ [Event.unlockEv 0]),
      ?_, held_write_trace _ _, held_read_trace _⟩
    rw [hw1, Option.map_some', hw2.1]
    simp [List.append_assoc]

theorem c4_lock_span_witness :
    (60 : Nat) < 65536 ∧ 0 < 8 ∧ 60 + 8 ≤ 65536 ∧ ((8 : Nat) : Int) % 2 = 0 ∧
    initS.lockDepth = 0 ∧ initS.trace = [] ∧
    ((read_from_address oAll oAll 60 [0, 0, 0, 0, 0, 0, 0, 0] ((8 : Nat) : Int) initS).map
        (fun r => heldThroughout r.2.2.trace) = some true ∧
    (write_to_address oAll oAll 60 [1, 2, 3, 4, 5, 6, 7, 8] ((8 : Nat) : Int) false initS).map
        (fun r => heldThroughout r.2.trace) = some true ∧
    (∃ t1 t2,
      (write_to_address oAll oAll 60 [1, 2, 3, 4, 5, 6, 7, 8] ((8 : Nat) : Int) true initS).map
          (fun r => r.2.trace) = some (t1 ++ Event.waitEv 5000 :: t2) ∧
      heldThroughout t1 = true ∧ heldThroughout t2 = true)) :=
  ⟨by decide, by decide, by decide, by decide, rfl, rfl,
    c4_lock_span 60 8 [1, 2, 3, 4, 5, 6, 7, 8] [0, 0, 0, 0, 0, 0, 0, 0] initS
      (by decide) (by decide) (by decide) (by decide) rfl rfl⟩
